import Mathlib

/-!
Verification of the stablecoin cross-exchange arbitrage engine.

The development shallowly embeds the Python modules
src/models/edge.py, src/models/exchange_node.py, src/models/graph.py,
src/algorithms/dijkstra.py, src/algorithms/astar.py,
src/algorithms/weighted_astar.py, src/algorithms/two_level_search.py and
src/utils/wallet_manager.py.

Conventions of the embedding:
- Python float arithmetic is modelled over the rationals; every constant of
  the source is an exact decimal rational.
- An ExchangeNode object compares equal (and hashes) by its
  (exchange, stablecoin) pair in the source, so paths, visited sets and edge
  endpoints are represented by that identity pair (NodeId below); the node
  record itself carries the mutable price and outgoing-edge list, stored in
  the graph keyed by identity.
- The Python dict of nodes is an insertion-ordered association list;
  in-place mutation of a stored node is an update of its entry.
- The heapq frontier is embedded twice.  The totalized model keeps a list
  sorted by the numeric priority and is used for the properties that hold
  of every serving order.  The exact model reproduces CPython heapq
  (heappush, heappop and both sifts) together with the partial tuple
  comparison: equal-priority entries fall through to comparing
  ExchangeNode objects, which the source class does not support, so those
  runs abort with TypeError exactly where the source raises it.
- The unbounded while-loop over the frontier is given an explicit fuel
  argument; when fuel runs out the opportunities accumulated so far are
  returned, so any terminating run of the source is the value at every
  sufficiently large fuel, and loop invariants are proved for all fuel.
-/

namespace Arbitrage

/-- Identity of a node: the (exchange, stablecoin) pair, which is exactly
what the source's ExchangeNode equality and hash compare. -/
abbrev NodeId := String × String

/-- Embedding of src/models/edge.py, class Edge.  The source and target
node object references are represented by node identities.  The weight
attribute is stored, exactly as in the source. -/
structure Edge where
  source : NodeId
  target : NodeId
  fee : ℚ
  volatility_cost : ℚ
  transfer_time : ℚ
  weight : ℚ
deriving DecidableEq, Repr

/-- Edge constructor (Edge.__init__): stores weight = fee + volatility_cost. -/
def Edge.init (source target : NodeId) (fee volatility_cost transfer_time : ℚ) : Edge :=
  { source := source, target := target, fee := fee, volatility_cost := volatility_cost,
    transfer_time := transfer_time, weight := fee + volatility_cost }

/-- Edge.update_volatility_cost: sets the volatility cost and recomputes weight. -/
def Edge.update_volatility_cost (e : Edge) (new_cost : ℚ) : Edge :=
  { e with volatility_cost := new_cost, weight := e.fee + new_cost }

/-- States an Edge value can be in over its lifetime: freshly constructed,
or the result of any sequence of update_volatility_cost calls. -/
inductive Edge.Reachable : Edge → Prop
  | init (source target : NodeId) (fee volatility_cost transfer_time : ℚ) :
      Edge.Reachable (Edge.init source target fee volatility_cost transfer_time)
  | update (e : Edge) (new_cost : ℚ) :
      Edge.Reachable e → Edge.Reachable (e.update_volatility_cost new_cost)

/-- Embedding of src/models/exchange_node.py, class ExchangeNode. -/
structure ExchangeNode where
  exchange : String
  stablecoin : String
  price : ℚ
  edges : List Edge
deriving DecidableEq, Repr

/-- ExchangeNode.add_edge: append an outgoing edge. -/
def ExchangeNode.add_edge (n : ExchangeNode) (e : Edge) : ExchangeNode :=
  { n with edges := n.edges ++ [e] }

/-- Exact-key lookup in an association list, the embedding of a Python
dict read (dicts preserve insertion order; keys are compared by equality). -/
def lookupKey {α β : Type} [DecidableEq α] : List (α × β) → α → Option β
  | [], _ => none
  | kv :: rest, k => if kv.1 = k then some kv.2 else lookupKey rest k

/-- In-place update of the entry stored under an existing key, the
embedding of mutating the object a Python dict holds at that key. -/
def updateKey {α β : Type} [DecidableEq α] (l : List (α × β)) (k : α) (v : β) :
    List (α × β) :=
  l.map fun kv => if kv.1 = k then (k, v) else kv

/-- Embedding of src/models/graph.py, class ArbitrageGraph: an
insertion-ordered map from identity to node plus the flat edge list. -/
structure ArbitrageGraph where
  nodes : List (NodeId × ExchangeNode)
  edges : List Edge
deriving DecidableEq, Repr

/-- The empty graph (ArbitrageGraph.__init__). -/
def ArbitrageGraph.empty : ArbitrageGraph := { nodes := [], edges := [] }

/-- ArbitrageGraph.add_node: insert a fresh node under an absent key,
otherwise update the stored node's price in place; returns the graph
together with the node the source returns (self.nodes[key]). -/
def ArbitrageGraph.add_node (g : ArbitrageGraph) (exchange stablecoin : String)
    (price : ℚ) : ArbitrageGraph × ExchangeNode :=
  let key : NodeId := (exchange, stablecoin)
  match lookupKey g.nodes key with
  | none =>
      let node : ExchangeNode :=
        { exchange := exchange, stablecoin := stablecoin, price := price, edges := [] }
      ({ g with nodes := g.nodes ++ [(key, node)] }, node)
  | some n =>
      let n' := { n with price := price }
      ({ g with nodes := updateKey g.nodes key n' }, n')

/-- ArbitrageGraph.add_edge: raises when either endpoint key is absent
(the source raises ValueError, which the specification names NodeNotFound);
the raise is embedded as a none result paired with the untouched graph.
On success the edge is appended to the source node's outgoing list and to
the graph's flat edge list. -/
def ArbitrageGraph.add_edge (g : ArbitrageGraph)
    (source_exchange source_stablecoin target_exchange target_stablecoin : String)
    (fee volatility_cost transfer_time : ℚ) : ArbitrageGraph × Option Edge :=
  let source_key : NodeId := (source_exchange, source_stablecoin)
  let target_key : NodeId := (target_exchange, target_stablecoin)
  match lookupKey g.nodes source_key, lookupKey g.nodes target_key with
  | some source_node, some _ =>
      let edge := Edge.init source_key target_key fee volatility_cost transfer_time
      ({ nodes := updateKey g.nodes source_key (source_node.add_edge edge),
         edges := g.edges ++ [edge] }, some edge)
  | some _, none => (g, none)
  | none, some _ => (g, none)
  | none, none => (g, none)

/-- ArbitrageGraph.get_node. -/
def ArbitrageGraph.get_node (g : ArbitrageGraph) (exchange stablecoin : String) :
    Option ExchangeNode :=
  lookupKey g.nodes (exchange, stablecoin)

/-- Price of the node stored under an identity (node.price reads during a
search; every identity a search touches is present in the graph). -/
def ArbitrageGraph.price (g : ArbitrageGraph) (n : NodeId) : ℚ :=
  ((lookupKey g.nodes n).map ExchangeNode.price).getD 0

/-- Outgoing-edge list of the node stored under an identity (node.edges). -/
def ArbitrageGraph.node_edges (g : ArbitrageGraph) (n : NodeId) : List Edge :=
  ((lookupKey g.nodes n).map ExchangeNode.edges).getD []

/-- One frontier entry of the searches: the priority key (total cost for
Dijkstra, the f value for the A* variants), cumulative cost, current node,
path so far and depth — the tuple heapq orders. -/
structure SearchState where
  f_cost : ℚ
  total_cost : ℚ
  node : NodeId
  path : List NodeId
  depth : ℕ
deriving DecidableEq, Repr

/-- A reported opportunity: (path, net_profit, total_cost). -/
abbrev Opportunity := List NodeId × ℚ × ℚ

/-- Priority-queue insertion: states are kept sorted by the leading
f_cost, so popping the head is the heapq pop of a minimum element. -/
def insertByKey (x : SearchState) : List SearchState → List SearchState
  | [] => [x]
  | y :: ys => if x.f_cost < y.f_cost then x :: y :: ys else y :: insertByKey x ys

/-- Stable insertion for descending-net-profit order. -/
def insertByProfit (x : Opportunity) : List Opportunity → List Opportunity
  | [] => [x]
  | y :: ys => if y.2.1 ≤ x.2.1 then x :: y :: ys else y :: insertByProfit x ys

/-- The final opportunities.sort(key profit, reverse) of the searches:
a stable sort by descending net profit. -/
def sortByProfit : List Opportunity → List Opportunity
  | [] => []
  | x :: xs => insertByProfit x (sortByProfit xs)

/-- Embedding of astar.volatility_heuristic: transfer-time risk plus
price-difference volatility risk. -/
def volatility_heuristic (g : ArbitrageGraph) (current_node target_node : NodeId)
    (e : Edge) (volatility_factor : ℚ) : ℚ :=
  e.transfer_time * 0.001 + |g.price current_node - g.price target_node| * volatility_factor

/-- Successor state pushed when an edge survives the one-hop filter: new
cumulative cost, extended path, incremented depth, and the priority the
active cost function assigns (push_key receives the new cumulative cost,
the current node, the neighbor and the edge). -/
def succState (push_key : ℚ → NodeId → NodeId → Edge → ℚ) (st : SearchState)
    (e : Edge) : SearchState :=
  { f_cost := push_key (st.total_cost + e.weight) st.node e.target e,
    total_cost := st.total_cost + e.weight,
    node := e.target,
    path := st.path ++ [e.target],
    depth := st.depth + 1 }

/-- Expansion step shared by the three searches: for each outgoing edge of
the popped state's node, if the one-hop filter current.price −
neighbor.price > edge.weight passes, push the successor state. -/
def expandState (g : ArbitrageGraph) (push_key : ℚ → NodeId → NodeId → Edge → ℚ)
    (st : SearchState) (frontier : List SearchState) : List SearchState :=
  (g.node_edges st.node).foldl
    (fun acc e =>
      if e.weight < g.price st.node - g.price e.target then
        insertByKey (succState push_key st e) acc
      else acc)
    frontier

/-- The shared traversal loop of dijkstra_arbitrage, astar_arbitrage and
weighted_astar_arbitrage: pop the minimum-priority state, skip it if its
(node, depth) is visited, emit a cycle back to start when net profit is
positive, prune at max_depth, otherwise expand the filtered neighbors. -/
def searchLoop (g : ArbitrageGraph) (start : NodeId) (max_depth : ℤ)
    (push_key : ℚ → NodeId → NodeId → Edge → ℚ) :
    ℕ → List SearchState → List (NodeId × ℕ) → List Opportunity → List Opportunity
  | 0, _, _, opportunities => opportunities
  | _ + 1, [], _, opportunities => opportunities
  | fuel + 1, st :: rest, visited, opportunities =>
    if (st.node, st.depth) ∈ visited then
      searchLoop g start max_depth push_key fuel rest visited opportunities
    else
      let visited' := (st.node, st.depth) :: visited
      if 1 < st.path.length ∧ st.node = start then
        let initial_price := g.price start
        let net_profit := initial_price - initial_price * (1 + st.total_cost)
        let opportunities' :=
          if 0 < net_profit then opportunities ++ [(st.path, net_profit, st.total_cost)]
          else opportunities
        searchLoop g start max_depth push_key fuel rest visited' opportunities'
      else if max_depth ≤ (st.depth : ℤ) then
        searchLoop g start max_depth push_key fuel rest visited' opportunities
      else
        searchLoop g start max_depth push_key fuel
          (expandState g push_key st rest) visited' opportunities

/-- The initial frontier of every search: state (0, start, [start], 0). -/
def initialFrontier (start : NodeId) : List SearchState :=
  [{ f_cost := 0, total_cost := 0, node := start, path := [start], depth := 0 }]

/-- Embedding of dijkstra.dijkstra_arbitrage: priority is the cumulative
cost itself; the result is sorted by descending net profit. -/
def dijkstra_arbitrage (g : ArbitrageGraph) (start : NodeId) (max_depth : ℤ)
    (fuel : ℕ) : List Opportunity :=
  sortByProfit
    (searchLoop g start max_depth (fun new_cost _ _ _ => new_cost) fuel
      (initialFrontier start) [] [])

/-- Embedding of astar.astar_arbitrage: priority is cumulative cost plus
the volatility/time heuristic of the hop. -/
def astar_arbitrage (g : ArbitrageGraph) (start : NodeId) (max_depth : ℤ)
    (volatility_factor : ℚ) (fuel : ℕ) : List Opportunity :=
  sortByProfit
    (searchLoop g start max_depth
      (fun new_cost current neighbor e =>
        new_cost + volatility_heuristic g current neighbor e volatility_factor)
      fuel (initialFrontier start) [] [])

/-- Embedding of weighted_astar.weighted_astar_arbitrage: priority is
cumulative cost plus weight times the heuristic. -/
def weighted_astar_arbitrage (g : ArbitrageGraph) (start : NodeId) (max_depth : ℤ)
    (volatility_factor weight : ℚ) (fuel : ℕ) : List Opportunity :=
  sortByProfit
    (searchLoop g start max_depth
      (fun new_cost current neighbor e =>
        new_cost + weight * volatility_heuristic g current neighbor e volatility_factor)
      fuel (initialFrontier start) [] [])

/-! Association-list lemmas. -/

theorem lookupKey_mem {α β : Type} [DecidableEq α] {l : List (α × β)} {k : α} {v : β}
    (h : lookupKey l k = some v) : (k, v) ∈ l := by
  induction l with
  | nil => simp [lookupKey] at h
  | cons kv rest ih =>
    by_cases hk : kv.1 = k
    · simp only [lookupKey, hk, if_pos] at h
      obtain ⟨a, b⟩ := kv
      obtain rfl : b = v := Option.some.inj h
      obtain rfl : a = k := hk
      exact List.mem_cons_self ..
    · simp only [lookupKey, hk, if_neg, not_false_iff] at h
      exact List.mem_cons_of_mem _ (ih h)

theorem lookupKey_append_some {α β : Type} [DecidableEq α] {l₁ : List (α × β)}
    (l₂ : List (α × β)) {k : α} {v : β} (h : lookupKey l₁ k = some v) :
    lookupKey (l₁ ++ l₂) k = some v := by
  induction l₁ with
  | nil => simp [lookupKey] at h
  | cons kv rest ih =>
    by_cases hk : kv.1 = k
    · simpa [lookupKey, hk] using h
    · simp only [lookupKey, hk, if_neg, not_false_iff] at h ⊢
      exact ih h

theorem lookupKey_append_none {α β : Type} [DecidableEq α] {l₁ : List (α × β)}
    (l₂ : List (α × β)) {k : α} (h : lookupKey l₁ k = none) :
    lookupKey (l₁ ++ l₂) k = lookupKey l₂ k := by
  induction l₁ with
  | nil => simp [lookupKey]
  | cons kv rest ih =>
    by_cases hk : kv.1 = k
    · simp [lookupKey, hk] at h
    · simp only [lookupKey, hk, if_neg, not_false_iff] at h ⊢
      exact ih h

theorem lookupKey_updateKey_self {α β : Type} [DecidableEq α] {l : List (α × β)}
    {k : α} {v : β} (v' : β) (h : lookupKey l k = some v) :
    lookupKey (updateKey l k v') k = some v' := by
  induction l with
  | nil => simp [lookupKey] at h
  | cons kv rest ih =>
    by_cases hk : kv.1 = k
    · simp [lookupKey, updateKey, hk]
    · simp only [lookupKey, hk, if_neg, not_false_iff] at h
      simp only [updateKey, List.map_cons, if_neg hk]
      simpa [lookupKey, hk] using ih h

theorem lookupKey_updateKey_ne {α β : Type} [DecidableEq α] (l : List (α × β))
    {j k : α} (v' : β) (h : j ≠ k) :
    lookupKey (updateKey l k v') j = lookupKey l j := by
  induction l with
  | nil => simp [lookupKey, updateKey]
  | cons kv rest ih =>
    by_cases hk : kv.1 = k
    · have : k ≠ j := fun hkj => h hkj.symm
      simp only [updateKey, List.map_cons, if_pos hk, lookupKey, this, if_neg,
        not_false_iff]
      rw [← hk] at this
      simp only [lookupKey, this, if_neg, not_false_iff] at ih ⊢
      simpa [updateKey] using ih
    · simp only [updateKey, List.map_cons, if_neg hk, lookupKey]
      by_cases hj : kv.1 = j
      · simp [hj]
      · simpa [hj, updateKey] using ih

theorem length_updateKey {α β : Type} [DecidableEq α] (l : List (α × β)) (k : α)
    (v : β) : (updateKey l k v).length = l.length := by
  simp [updateKey]

/-! Membership lemmas for the sorted insertions. -/

theorem mem_insertByKey {x y : SearchState} {l : List SearchState} :
    x ∈ insertByKey y l ↔ x = y ∨ x ∈ l := by
  induction l with
  | nil => simp [insertByKey]
  | cons z zs ih =>
    by_cases h : y.f_cost < z.f_cost
    · simp [insertByKey, h]
    · simp only [insertByKey, h, if_neg, not_false_iff, List.mem_cons, ih]
      tauto

theorem mem_insertByProfit {x y : Opportunity} {l : List Opportunity} :
    x ∈ insertByProfit y l ↔ x = y ∨ x ∈ l := by
  induction l with
  | nil => simp [insertByProfit]
  | cons z zs ih =>
    by_cases h : z.2.1 ≤ y.2.1
    · simp [insertByProfit, h]
    · simp only [insertByProfit, h, if_neg, not_false_iff, List.mem_cons, ih]
      tauto

theorem mem_sortByProfit {x : Opportunity} {l : List Opportunity} :
    x ∈ sortByProfit l ↔ x ∈ l := by
  induction l with
  | nil => simp [sortByProfit]
  | cons z zs ih => simp [sortByProfit, mem_insertByProfit, ih]

theorem mem_expandState {g : ArbitrageGraph}
    {push_key : ℚ → NodeId → NodeId → Edge → ℚ} {st : SearchState}
    {x : SearchState} :
    ∀ {frontier : List SearchState}, x ∈ expandState g push_key st frontier →
      x ∈ frontier ∨ ∃ e ∈ g.node_edges st.node,
        e.weight < g.price st.node - g.price e.target ∧
        x = succState push_key st e := by
  have main : ∀ (es : List Edge) (frontier : List SearchState),
      x ∈ es.foldl (fun acc e =>
        if e.weight < g.price st.node - g.price e.target then
          insertByKey (succState push_key st e) acc
        else acc) frontier →
      x ∈ frontier ∨ ∃ e ∈ es,
        e.weight < g.price st.node - g.price e.target ∧
        x = succState push_key st e := by
    intro es
    induction es with
    | nil => intro frontier h; exact Or.inl h
    | cons e rest ih =>
      intro frontier h
      simp only [List.foldl_cons] at h
      rcases ih _ h with h' | ⟨e', he', hc', hx⟩
      · by_cases hc : e.weight < g.price st.node - g.price e.target
        · rw [if_pos hc] at h'
          rcases mem_insertByKey.mp h' with rfl | h''
          · exact Or.inr ⟨e, List.mem_cons_self .., hc, rfl⟩
          · exact Or.inl h''
        · rw [if_neg hc] at h'
          exact Or.inl h'
      · exact Or.inr ⟨e', List.mem_cons_of_mem _ he', hc', hx⟩
  intro frontier h
  exact main _ _ h

/-- Generic invariant of the shared traversal loop: a property P preserved
by expansion, together with a property Q holding of every emitted cycle of
a P-state, holds of every opportunity the loop returns. -/
theorem searchLoop_inv (g : ArbitrageGraph) (start : NodeId) (max_depth : ℤ)
    (push_key : ℚ → NodeId → NodeId → Edge → ℚ)
    (P : SearchState → Prop) (Q : Opportunity → Prop)
    (hsucc : ∀ st e, P st → e ∈ g.node_edges st.node →
      e.weight < g.price st.node - g.price e.target →
      ¬ max_depth ≤ (st.depth : ℤ) → P (succState push_key st e))
    (hemit : ∀ st, P st → 1 < st.path.length → st.node = start →
      0 < g.price start - g.price start * (1 + st.total_cost) →
      Q (st.path, g.price start - g.price start * (1 + st.total_cost), st.total_cost)) :
    ∀ (fuel : ℕ) (frontier : List SearchState) (visited : List (NodeId × ℕ))
      (opportunities : List Opportunity),
      (∀ st ∈ frontier, P st) → (∀ o ∈ opportunities, Q o) →
      ∀ o ∈ searchLoop g start max_depth push_key fuel frontier visited opportunities,
        Q o := by
  intro fuel
  induction fuel with
  | zero => intro frontier visited opportunities _ hopp o ho; exact hopp o ho
  | succ fuel ih =>
    intro frontier visited opportunities hfr hopp o ho
    match frontier with
    | [] => exact hopp o ho
    | st :: rest =>
      have hst : P st := hfr st (List.mem_cons_self ..)
      have hrest : ∀ s ∈ rest, P s := fun s hs => hfr s (List.mem_cons_of_mem _ hs)
      simp only [searchLoop] at ho
      by_cases hv : (st.node, st.depth) ∈ visited
      · rw [if_pos hv] at ho
        exact ih rest visited opportunities hrest hopp o ho
      · rw [if_neg hv] at ho
        by_cases hcycle : 1 < st.path.length ∧ st.node = start
        · rw [if_pos hcycle] at ho
          by_cases hpos :
              0 < g.price start - g.price start * (1 + st.total_cost)
          · rw [if_pos hpos] at ho
            refine ih rest _ _ hrest ?_ o ho
            intro o' ho'
            rcases List.mem_append.mp ho' with h | h
            · exact hopp o' h
            · rcases List.mem_singleton.mp h with rfl
              exact hemit st hst hcycle.1 hcycle.2 hpos
          · rw [if_neg hpos] at ho
            exact ih rest _ _ hrest hopp o ho
        · rw [if_neg hcycle] at ho
          by_cases hdepth : max_depth ≤ (st.depth : ℤ)
          · rw [if_pos hdepth] at ho
            exact ih rest _ _ hrest hopp o ho
          · rw [if_neg hdepth] at ho
            refine ih _ _ _ ?_ hopp o ho
            intro s hs
            rcases mem_expandState hs with h | ⟨e, he, hc, rfl⟩
            · exact hrest s h
            · exact hsucc st e hst he hc hdepth

/-- Every edge a search can traverse from a node sits in the stored
outgoing-edge list of a node of the graph. -/
theorem node_edges_subset {g : ArbitrageGraph} {n : NodeId} {e : Edge}
    (h : e ∈ g.node_edges n) : ∃ kv ∈ g.nodes, e ∈ kv.2.edges := by
  unfold ArbitrageGraph.node_edges at h
  cases hl : lookupKey g.nodes n with
  | none => rw [hl] at h; simp at h
  | some node =>
    rw [hl] at h
    simp at h
    exact ⟨(n, node), lookupKey_mem hl, h⟩

/-- Core cycle-freeness lemma: for any cost function and any prices, when
every stored edge has non-negative weight no opportunity is ever emitted.
Every frontier state beyond the root satisfies total_cost <
price(start) − price(current), because each admitted hop contributes
strictly more price drop than weight; closing a cycle back to start would
force the non-negative total_cost below price(start) − price(start) = 0. -/
theorem searchLoop_empty_of_nonneg_weights (g : ArbitrageGraph) (start : NodeId)
    (max_depth : ℤ) (push_key : ℚ → NodeId → NodeId → Edge → ℚ) (fuel : ℕ)
    (hw : ∀ n : NodeId, ∀ e ∈ g.node_edges n, 0 ≤ e.weight) :
    searchLoop g start max_depth push_key fuel (initialFrontier start) [] [] = [] := by
  rw [List.eq_nil_iff_forall_not_mem]
  intro o ho
  refine searchLoop_inv g start max_depth push_key
    (fun st => (st.path = [start] ∧ st.total_cost = 0 ∧ st.node = start) ∨
      (0 ≤ st.total_cost ∧ st.total_cost < g.price start - g.price st.node))
    (fun _ => False) ?_ ?_ fuel _ [] []
    ?_ (fun o' ho' => absurd ho' (List.not_mem_nil o')) o ho
  · intro st e hst he hc _
    have hwe : 0 ≤ e.weight := hw st.node e he
    rcases hst with ⟨_, hc0, hnode⟩ | ⟨hge, hlt⟩
    · right
      constructor
      · simp only [succState, hc0]
        linarith
      · simp only [succState, hc0, hnode] at hc ⊢
        linarith
    · right
      constructor
      · simp only [succState]
        linarith
      · simp only [succState]
        linarith
  · intro st hst hlen hnode _
    rcases hst with ⟨hpath, _, _⟩ | ⟨hge, hlt⟩
    · rw [hpath] at hlen
      simp at hlen
    · rw [hnode] at hlt
      simp at hlt
      linarith
  · intro st hst
    simp only [initialFrontier, List.mem_singleton] at hst
    subst hst
    exact Or.inl ⟨rfl, rfl, rfl⟩

/-- The three searches, bundled over a shared graph and root, return
nothing whenever every stored edge weight is non-negative.  Used by
several claims. -/
theorem searches_empty_core (g : ArbitrageGraph) (start : NodeId)
    (max_depth : ℤ) (volatility_factor weight : ℚ) (fuel : ℕ)
    (hw : ∀ kv ∈ g.nodes, ∀ e ∈ kv.2.edges, 0 ≤ e.weight) :
    dijkstra_arbitrage g start max_depth fuel = [] ∧
    astar_arbitrage g start max_depth volatility_factor fuel = [] ∧
    weighted_astar_arbitrage g start max_depth volatility_factor weight fuel = [] := by
  have hw' : ∀ n : NodeId, ∀ e ∈ g.node_edges n, 0 ≤ e.weight := by
    intro n e he
    obtain ⟨kv, hkv, hekv⟩ := node_edges_subset he
    exact hw kv hkv e hekv
  refine ⟨?_, ?_, ?_⟩
  · unfold dijkstra_arbitrage
    rw [searchLoop_empty_of_nonneg_weights g start max_depth _ fuel hw']
    rfl
  · unfold astar_arbitrage
    rw [searchLoop_empty_of_nonneg_weights g start max_depth _ fuel hw']
    rfl
  · unfold weighted_astar_arbitrage
    rw [searchLoop_empty_of_nonneg_weights g start max_depth _ fuel hw']
    rfl

/-- Depth-bound invariant of the traversal loop: every state pushed after
the root has path length depth + 1 with depth within the bound, so every
emitted opportunity path has at most max_depth + 1 nodes. -/
theorem searchLoop_path_length_core (g : ArbitrageGraph) (start : NodeId)
    (max_depth : ℤ) (push_key : ℚ → NodeId → NodeId → Edge → ℚ) (fuel : ℕ) :
    ∀ o ∈ searchLoop g start max_depth push_key fuel (initialFrontier start) [] [],
      (o.1.length : ℤ) ≤ max_depth + 1 := by
  intro o ho
  refine searchLoop_inv g start max_depth push_key
    (fun st => st.path.length = st.depth + 1 ∧
      (1 ≤ st.depth → (st.depth : ℤ) ≤ max_depth))
    (fun o' => (o'.1.length : ℤ) ≤ max_depth + 1) ?_ ?_ fuel _ [] []
    ?_ (fun o' ho' => absurd ho' (List.not_mem_nil o')) o ho
  · intro st e hst _ _ hdepth
    constructor
    · simp [succState, hst.1]
    · intro _
      simp only [succState]
      omega
  · intro st hst hlen _ _
    have h1 := hst.1
    have h2 := hst.2
    simp only []
    omega
  · intro st hst
    simp only [initialFrontier, List.mem_singleton] at hst
    subst hst
    refine ⟨rfl, ?_⟩
    intro h
    simp at h

/-! Concrete graphs used as witnesses and failing inputs. -/

/-- The specification's round-trip scenario: a three-node cycle
A→B→C→A whose edges each have fee 0.001 and no volatility cost, with
arbitrary prices, built through the graph constructors. -/
def round_trip_graph (pa pb pc : ℚ) : ArbitrageGraph :=
  let g1 := (ArbitrageGraph.empty.add_node "ExchangeA" "USD" pa).1
  let g2 := (g1.add_node "ExchangeB" "USD" pb).1
  let g3 := (g2.add_node "ExchangeC" "USD" pc).1
  let g4 := (g3.add_edge "ExchangeA" "USD" "ExchangeB" "USD" 0.001 0 0).1
  let g5 := (g4.add_edge "ExchangeB" "USD" "ExchangeC" "USD" 0.001 0 0).1
  (g5.add_edge "ExchangeC" "USD" "ExchangeA" "USD" 0.001 0 0).1

/-- A one-node graph with no edges. -/
def single_node_graph : ArbitrageGraph :=
  (ArbitrageGraph.empty.add_node "Kraken" "USDT" 1).1

/-- A two-node graph whose two opposite edges carry negative fees; the
only configuration in which the searches emit anything at all. -/
def negative_fee_graph : ArbitrageGraph :=
  let g1 := (ArbitrageGraph.empty.add_node "E1" "X" 1).1
  let g2 := (g1.add_node "E2" "X" 1).1
  let g3 := (g2.add_edge "E1" "X" "E2" "X" (-1) 0 0).1
  (g3.add_edge "E2" "X" "E1" "X" (-1) 0 0).1

/-- C1: the specification requires the round-trip cycle A→B→C→A with edge
weights 0.001 each to be reported by least-cost search as exactly one
cycle of total cost about 0.003; the code instead reports nothing, for
every choice of the three prices and however long the loop runs.  The
emitted net profit formula initial_price − initial_price·(1 + total_cost)
is non-positive here, and the one-hop filter cannot admit all three legs
of a cycle whose weights are positive, so no candidate cycle even forms. -/
theorem round_trip_cycle_is_never_reported (pa pb pc : ℚ) (fuel : ℕ) :
    dijkstra_arbitrage (round_trip_graph pa pb pc) ("ExchangeA", "USD") 10 fuel = [] := by
  refine (searches_empty_core (round_trip_graph pa pb pc) ("ExchangeA", "USD")
    10 0.1 1.5 fuel ?_).1
  intro kv hkv e he
  have hnodes : (round_trip_graph pa pb pc).nodes =
      [(("ExchangeA", "USD"),
        { exchange := "ExchangeA", stablecoin := "USD", price := pa,
          edges := [Edge.init ("ExchangeA", "USD") ("ExchangeB", "USD") 0.001 0 0] }),
       (("ExchangeB", "USD"),
        { exchange := "ExchangeB", stablecoin := "USD", price := pb,
          edges := [Edge.init ("ExchangeB", "USD") ("ExchangeC", "USD") 0.001 0 0] }),
       (("ExchangeC", "USD"),
        { exchange := "ExchangeC", stablecoin := "USD", price := pc,
          edges := [Edge.init ("ExchangeC", "USD") ("ExchangeA", "USD") 0.001 0 0] })] := rfl
  rw [hnodes] at hkv
  simp only [List.mem_cons, List.not_mem_nil, or_false] at hkv
  rcases hkv with rfl | rfl | rfl <;>
  · simp only [List.mem_singleton] at he
    subst he
    norm_num [Edge.init]

/-- C7: every opportunity path any of the three searches emits has at most
max_depth + 1 nodes. -/
theorem emitted_paths_respect_depth_bound (g : ArbitrageGraph) (start : NodeId)
    (max_depth : ℤ) (volatility_factor weight : ℚ) (fuel : ℕ) :
    (∀ o ∈ dijkstra_arbitrage g start max_depth fuel,
      (o.1.length : ℤ) ≤ max_depth + 1) ∧
    (∀ o ∈ astar_arbitrage g start max_depth volatility_factor fuel,
      (o.1.length : ℤ) ≤ max_depth + 1) ∧
    (∀ o ∈ weighted_astar_arbitrage g start max_depth volatility_factor weight fuel,
      (o.1.length : ℤ) ≤ max_depth + 1) := by
  refine ⟨?_, ?_, ?_⟩
  · intro o ho
    unfold dijkstra_arbitrage at ho
    rw [mem_sortByProfit] at ho
    exact searchLoop_path_length_core g start max_depth _ fuel o ho
  · intro o ho
    unfold astar_arbitrage at ho
    rw [mem_sortByProfit] at ho
    exact searchLoop_path_length_core g start max_depth _ fuel o ho
  · intro o ho
    unfold weighted_astar_arbitrage at ho
    rw [mem_sortByProfit] at ho
    exact searchLoop_path_length_core g start max_depth _ fuel o ho

/-- Witness for C7 at the negative-fee graph, the one configuration whose
search output is non-empty: the emitted two-hop cycle respects the bound. -/
theorem emitted_paths_respect_depth_bound_witness :
    (([("E1", "X"), ("E2", "X"), ("E1", "X")], (2 : ℚ), (-2 : ℚ)) ∈
      dijkstra_arbitrage negative_fee_graph ("E1", "X") 10 20) ∧
    ((([("E1", "X"), ("E2", "X"), ("E1", "X")] : List NodeId).length : ℤ) ≤ 10 + 1) :=
  ⟨by decide!,
   (emitted_paths_respect_depth_bound negative_fee_graph ("E1", "X") 10 0.1 1.5 20).1
     ([("E1", "X"), ("E2", "X"), ("E1", "X")], (2 : ℚ), (-2 : ℚ)) (by decide!)⟩

/-- C3: every Edge, at construction and after any sequence of
update_volatility_cost calls, stores weight = fee + volatility_cost. -/
theorem edge_weight_invariant (e : Edge) (h : Edge.Reachable e) :
    e.weight = e.fee + e.volatility_cost := by
  induction h with
  | init source target fee volatility_cost transfer_time => rfl
  | update e new_cost _ _ => rfl

/-- Witness for C3: a freshly built edge updated once still satisfies the
invariant. -/
theorem edge_weight_invariant_witness :
    ((Edge.init ("Kraken", "USDT") ("Coinbase", "USDC") 2 3 60).update_volatility_cost
        5).weight =
      ((Edge.init ("Kraken", "USDT") ("Coinbase", "USDC") 2 3 60).update_volatility_cost
        5).fee +
      ((Edge.init ("Kraken", "USDT") ("Coinbase", "USDC") 2 3 60).update_volatility_cost
        5).volatility_cost :=
  edge_weight_invariant _
    (Edge.Reachable.update _ 5
      (Edge.Reachable.init ("Kraken", "USDT") ("Coinbase", "USDC") 2 3 60))

/-- After add_node, the key stores exactly the node the call returns. -/
theorem add_node_lookup (g : ArbitrageGraph) (ex coin : String) (p : ℚ) :
    lookupKey (g.add_node ex coin p).1.nodes (ex, coin) =
      some (g.add_node ex coin p).2 := by
  unfold ArbitrageGraph.add_node
  cases hl : lookupKey g.nodes (ex, coin) with
  | none =>
    simp only [hl]
    rw [lookupKey_append_none _ hl]
    simp [lookupKey]
  | some n =>
    simp only [hl]
    exact lookupKey_updateKey_self _ hl

/-- Shape of add_node on a key that is already present: the stored node is
replaced by the same node with the new price, and that node is returned. -/
theorem add_node_existing (g : ArbitrageGraph) (ex coin : String) (p : ℚ)
    (n : ExchangeNode) (h : lookupKey g.nodes (ex, coin) = some n) :
    (g.add_node ex coin p).1.nodes =
        updateKey g.nodes (ex, coin) { n with price := p } ∧
    (g.add_node ex coin p).2 = { n with price := p } ∧
    (g.add_node ex coin p).1.edges = g.edges := by
  unfold ArbitrageGraph.add_node
  simp only [h]
  refine ⟨by simp, by simp, by simp⟩

/-- C4: add_node is an idempotent upsert that never fails.  A second call
with the same identity leaves the node count unchanged; it returns the
previously stored node with only its price replaced, stores exactly that
node under the identity, leaves every other identity untouched and does
not touch the edge list. -/
theorem add_node_idempotent_upsert (g : ArbitrageGraph) (ex coin : String)
    (p₁ p₂ : ℚ) :
    ((g.add_node ex coin p₁).1.add_node ex coin p₂).1.nodes.length =
        (g.add_node ex coin p₁).1.nodes.length ∧
    ((g.add_node ex coin p₁).1.add_node ex coin p₂).2 =
        { (g.add_node ex coin p₁).2 with price := p₂ } ∧
    lookupKey ((g.add_node ex coin p₁).1.add_node ex coin p₂).1.nodes (ex, coin) =
        some ((g.add_node ex coin p₁).1.add_node ex coin p₂).2 ∧
    (∀ k : NodeId, k ≠ (ex, coin) →
      lookupKey ((g.add_node ex coin p₁).1.add_node ex coin p₂).1.nodes k =
        lookupKey (g.add_node ex coin p₁).1.nodes k) ∧
    ((g.add_node ex coin p₁).1.add_node ex coin p₂).1.edges =
        (g.add_node ex coin p₁).1.edges := by
  have h₁ := add_node_lookup g ex coin p₁
  obtain ⟨hnodes, hret, hedges⟩ :=
    add_node_existing (g.add_node ex coin p₁).1 ex coin p₂ _ h₁
  refine ⟨?_, hret, ?_, ?_, hedges⟩
  · rw [hnodes, length_updateKey]
  · rw [hret, hnodes]
    exact lookupKey_updateKey_self _ h₁
  · intro k hk
    rw [hnodes]
    exact lookupKey_updateKey_ne _ _ hk

/-- Witness for C4: re-adding (Kraken, USDT) with a new price keeps one
node, updates its price and returns the stored node. -/
theorem add_node_idempotent_upsert_witness :
    ((single_node_graph.add_node "Kraken" "USDT" 2).1.nodes.length =
        single_node_graph.nodes.length) ∧
    ((single_node_graph.add_node "Kraken" "USDT" 2).2 =
      { exchange := "Kraken", stablecoin := "USDT", price := 2, edges := [] }) := by
  have h := add_node_idempotent_upsert ArbitrageGraph.empty "Kraken" "USDT" 1 2
  exact ⟨h.1, by decide!⟩

/-- C5: add_edge fails exactly when one of the two endpoints is absent;
on failure the graph is returned untouched, and on success the freshly
constructed edge is appended both to the graph's flat edge list and to
the source node's outgoing list, with every other identity and the node
count untouched. -/
theorem add_edge_node_not_found_atomic (g : ArbitrageGraph)
    (se ss te ts : String) (fee volatility_cost transfer_time : ℚ) :
    ((g.add_edge se ss te ts fee volatility_cost transfer_time).2 = none ↔
      (lookupKey g.nodes (se, ss) = none ∨ lookupKey g.nodes (te, ts) = none)) ∧
    ((g.add_edge se ss te ts fee volatility_cost transfer_time).2 = none →
      (g.add_edge se ss te ts fee volatility_cost transfer_time).1 = g) ∧
    (∀ e, (g.add_edge se ss te ts fee volatility_cost transfer_time).2 = some e →
      e = Edge.init (se, ss) (te, ts) fee volatility_cost transfer_time ∧
      (g.add_edge se ss te ts fee volatility_cost transfer_time).1.edges =
          g.edges ++ [e] ∧
      (∃ sn, lookupKey g.nodes (se, ss) = some sn ∧
        lookupKey (g.add_edge se ss te ts fee volatility_cost transfer_time).1.nodes
            (se, ss) = some (sn.add_edge e)) ∧
      (∀ k : NodeId, k ≠ (se, ss) →
        lookupKey (g.add_edge se ss te ts fee volatility_cost transfer_time).1.nodes k =
          lookupKey g.nodes k) ∧
      (g.add_edge se ss te ts fee volatility_cost transfer_time).1.nodes.length =
          g.nodes.length) := by
  unfold ArbitrageGraph.add_edge
  cases hs : lookupKey g.nodes (se, ss) with
  | none =>
    cases ht : lookupKey g.nodes (te, ts) with
    | none =>
      simp only [hs, ht]
      refine ⟨by simp, by simp, ?_⟩
      intro e he
      simp at he
    | some tn =>
      simp only [hs, ht]
      refine ⟨by simp, by simp, ?_⟩
      intro e he
      simp at he
  | some sn =>
    cases ht : lookupKey g.nodes (te, ts) with
    | none =>
      simp only [hs, ht]
      refine ⟨by simp, by simp, ?_⟩
      intro e he
      simp at he
    | some tn =>
      simp only [hs, ht]
      refine ⟨by simp, by simp, ?_⟩
      intro e he
      obtain rfl : Edge.init (se, ss) (te, ts) fee volatility_cost transfer_time = e :=
        Option.some.inj he
      refine ⟨rfl, rfl, ⟨sn, rfl, lookupKey_updateKey_self _ hs⟩, ?_, ?_⟩
      · intro k hk
        exact lookupKey_updateKey_ne _ _ hk
      · exact length_updateKey g.nodes _ _

/-- A two-node edgeless graph used by the add_edge witness. -/
def two_node_graph : ArbitrageGraph :=
  (single_node_graph.add_node "Coinbase" "USDT" 1.01).1

/-- Witness for C5: adding an edge between the two present nodes appends
it to the flat edge list, and adding an edge to an absent node fails and
leaves the graph exactly as it was. -/
theorem add_edge_node_not_found_atomic_witness :
    ((two_node_graph.add_edge "Kraken" "USDT" "Coinbase" "USDT" 0.0005 0.0001 60).2 =
        some (Edge.init ("Kraken", "USDT") ("Coinbase", "USDT") 0.0005 0.0001 60) ∧
      (two_node_graph.add_edge "Kraken" "USDT" "Coinbase" "USDT" 0.0005 0.0001 60).1.edges =
        two_node_graph.edges ++
          [Edge.init ("Kraken", "USDT") ("Coinbase", "USDT") 0.0005 0.0001 60]) ∧
    ((two_node_graph.add_edge "Kraken" "USDT" "Missing" "USDT" 0.0005 0.0001 60).2 =
        none ∧
      (two_node_graph.add_edge "Kraken" "USDT" "Missing" "USDT" 0.0005 0.0001 60).1 =
        two_node_graph) :=
  ⟨⟨by decide!,
    ((add_edge_node_not_found_atomic two_node_graph "Kraken" "USDT" "Coinbase" "USDT"
        0.0005 0.0001 60).2.2 _ (by decide!)).2.1⟩,
   ⟨by decide!,
    (add_edge_node_not_found_atomic two_node_graph "Kraken" "USDT" "Missing" "USDT"
        0.0005 0.0001 60).2.1 (by decide!)⟩⟩

/-! Embedding of src/utils/wallet_manager.py. -/

/-- Embedding of class WalletManager: balances keyed by (exchange, coin)
in USD, and per-exchange custom fee schedules; an exchange without a
custom schedule uses the default tiered schedule installed at
construction. -/
structure WalletManager where
  balances : List ((String × String) × ℚ)
  fee_schedules : List (String × (ℚ → ℚ))

/-- WalletManager._create_default_fee_schedule: the four-tier step
function of traded volume (0.1% below 1,000; 0.05% below 10,000; 0.02%
below 100,000; 0.01% above). -/
def default_fee_schedule (volume : ℚ) : ℚ :=
  if volume < 1000 then 0.001
  else if volume < 10000 then 0.0005
  else if volume < 100000 then 0.0002
  else 0.0001

/-- WalletManager.get_balance: stored balance or 0.0. -/
def WalletManager.get_balance (wm : WalletManager) (exchange coin : String) : ℚ :=
  (lookupKey wm.balances (exchange, coin)).getD 0

/-- WalletManager.get_effective_fee: the exchange's custom schedule when
one was set, the default schedule otherwise. -/
def WalletManager.get_effective_fee (wm : WalletManager) (exchange : String)
    (volume : ℚ) : ℚ :=
  match lookupKey wm.fee_schedules exchange with
  | some fee_func => fee_func volume
  | none => default_fee_schedule volume

/-- WalletManager.get_max_executable_amount: 0.0 on the empty path,
otherwise the minimum balance across the path (the source folds min
starting from infinity, which on a non-empty path is the same minimum). -/
def WalletManager.get_max_executable_amount (wm : WalletManager) :
    List NodeId → ℚ
  | [] => 0
  | n :: rest =>
    (rest.map (fun m => wm.get_balance m.1 m.2)).foldl min (wm.get_balance n.1 n.2)

/-- Net profit the optimizer computes for one tested volume:
(base_profit_rate − base_cost_rate − summed per-exchange fee rate) · volume. -/
def WalletManager.volume_net_profit (wm : WalletManager) (path : List NodeId)
    (base_profit_rate base_cost_rate volume : ℚ) : ℚ :=
  (base_profit_rate - base_cost_rate -
    (path.map (fun n => wm.get_effective_fee n.1 volume)).sum) * volume

/-- Ascending insertion used to embed Python sorted(...). -/
def insertAsc (x : ℚ) : List ℚ → List ℚ
  | [] => [x]
  | y :: ys => if x ≤ y then x :: y :: ys else y :: insertAsc x ys

/-- Insertion sort, the embedding of Python sorted(...) on rationals. -/
def sortAsc : List ℚ → List ℚ
  | [] => []
  | y :: ys => insertAsc y (sortAsc ys)

/-- The candidate volumes optimize_volume evaluates:
sorted(set of 0, min(1000, funds), min(10000, funds), min(100000, funds),
funds)). -/
def test_volumes (available_funds : ℚ) : List ℚ :=
  sortAsc ([0, min 1000 available_funds, min 10000 available_funds,
    min 100000 available_funds, available_funds].dedup)

/-- WalletManager.optimize_volume: (0, 0) on an empty path or non-positive
funds; otherwise the best (volume, net profit) over the candidate volumes,
skipping non-positive volumes and keeping a strict improvement only. -/
def WalletManager.optimize_volume (wm : WalletManager) (path : List NodeId)
    (base_profit_rate base_cost_rate available_funds : ℚ) : ℚ × ℚ :=
  if path = [] ∨ available_funds ≤ 0 then (0, 0)
  else
    (test_volumes available_funds).foldl
      (fun best volume =>
        if volume ≤ 0 then best
        else if best.2 <
            wm.volume_net_profit path base_profit_rate base_cost_rate volume then
          (volume, wm.volume_net_profit path base_profit_rate base_cost_rate volume)
        else best)
      (0, 0)

/-- Result record of WalletManager.evaluate_opportunity. -/
structure OpportunityEval where
  executable : Bool
  max_amount : ℚ
  optimal_volume : ℚ
  optimal_profit : ℚ
  can_execute : Bool
  reason : String
deriving DecidableEq, Repr

/-- WalletManager.evaluate_opportunity: check the path-wide minimum
balance against the caller threshold; below it, return the structured
non-executable result; otherwise run optimize_volume with the minimum as
the available funds. -/
def WalletManager.evaluate_opportunity (wm : WalletManager) (path : List NodeId)
    (predicted_profit_rate predicted_cost_rate min_amount : ℚ) : OpportunityEval :=
  if wm.get_max_executable_amount path < min_amount then
    { executable := false, max_amount := wm.get_max_executable_amount path,
      optimal_volume := 0, optimal_profit := 0, can_execute := false,
      reason := "Insufficient funds" }
  else
    { executable := decide (0 <
        (wm.optimize_volume path predicted_profit_rate predicted_cost_rate
          (wm.get_max_executable_amount path)).2),
      max_amount := wm.get_max_executable_amount path,
      optimal_volume := (wm.optimize_volume path predicted_profit_rate
        predicted_cost_rate (wm.get_max_executable_amount path)).1,
      optimal_profit := (wm.optimize_volume path predicted_profit_rate
        predicted_cost_rate (wm.get_max_executable_amount path)).2,
      can_execute := true, reason := "Sufficient funds available" }

/-! Lemmas about the fee schedule and the optimizer fold. -/

/-- With no custom schedules installed, every exchange is charged by the
default tiered schedule. -/
theorem get_effective_fee_eq_default (wm : WalletManager)
    (hs : wm.fee_schedules = []) (exchange : String) (volume : ℚ) :
    wm.get_effective_fee exchange volume = default_fee_schedule volume := by
  unfold WalletManager.get_effective_fee
  rw [hs]
  rfl

/-- The default tiered fee rate never increases with volume. -/
theorem default_fee_schedule_antitone {v w : ℚ} (h : v ≤ w) :
    default_fee_schedule w ≤ default_fee_schedule v := by
  unfold default_fee_schedule
  split_ifs <;> norm_num <;> linarith

/-- With no custom schedules, the optimizer's net profit at a volume is
(profit rate − cost rate − path length · default fee rate) · volume. -/
theorem volume_net_profit_eq (wm : WalletManager) (hs : wm.fee_schedules = [])
    (path : List NodeId) (base_profit_rate base_cost_rate volume : ℚ) :
    wm.volume_net_profit path base_profit_rate base_cost_rate volume =
      (base_profit_rate - base_cost_rate -
        path.length * default_fee_schedule volume) * volume := by
  unfold WalletManager.volume_net_profit
  have hmap : path.map (fun n => wm.get_effective_fee n.1 volume) =
      List.replicate path.length (default_fee_schedule volume) := by
    induction path with
    | nil => rfl
    | cons n rest ih =>
      simp [List.replicate_succ, get_effective_fee_eq_default wm hs, ih]
  rw [hmap, List.sum_replicate, nsmul_eq_mul]

theorem mem_insertAsc {x y : ℚ} {l : List ℚ} :
    x ∈ insertAsc y l ↔ x = y ∨ x ∈ l := by
  induction l with
  | nil => simp [insertAsc]
  | cons z zs ih =>
    by_cases h : y ≤ z
    · simp [insertAsc, h]
    · simp only [insertAsc, h, if_neg, not_false_iff, List.mem_cons, ih]
      tauto

theorem mem_sortAsc {x : ℚ} {l : List ℚ} : x ∈ sortAsc l ↔ x ∈ l := by
  induction l with
  | nil => simp [sortAsc]
  | cons z zs ih => simp [sortAsc, mem_insertAsc, ih]

/-- The available funds themselves are always among the tested volumes. -/
theorem funds_mem_test_volumes (available_funds : ℚ) :
    available_funds ∈ test_volumes available_funds := by
  unfold test_volumes
  rw [mem_sortAsc, List.mem_dedup]
  simp

/-- The optimizer fold never decreases the best net profit. -/
theorem opt_fold_snd_mono (f : ℚ → ℚ) (l : List ℚ) (init : ℚ × ℚ) :
    init.2 ≤ (l.foldl (fun best volume =>
      if volume ≤ 0 then best
      else if best.2 < f volume then (volume, f volume) else best) init).2 := by
  induction l generalizing init with
  | nil => exact le_refl _
  | cons y ys ih =>
    simp only [List.foldl_cons]
    have hstep : init.2 ≤
        (if y ≤ 0 then init else
          if init.2 < f y then (y, f y) else init).2 := by
      by_cases h1 : y ≤ 0
      · rw [if_pos h1]
      · rw [if_neg h1]
        by_cases h2 : init.2 < f y
        · rw [if_pos h2]
          exact le_of_lt h2
        · rw [if_neg h2]
    exact le_trans hstep (ih _)

/-- The final best net profit dominates the net profit of every positive
tested volume. -/
theorem opt_fold_ge_of_mem (f : ℚ → ℚ) (l : List ℚ) (init : ℚ × ℚ) :
    ∀ c ∈ l, 0 < c → f c ≤ (l.foldl (fun best volume =>
      if volume ≤ 0 then best
      else if best.2 < f volume then (volume, f volume) else best) init).2 := by
  induction l generalizing init with
  | nil => intro c hc; simp at hc
  | cons y ys ih =>
    intro c hc hcpos
    simp only [List.foldl_cons]
    rcases List.mem_cons.mp hc with rfl | hmem
    · rw [if_neg (not_le.mpr hcpos)]
      by_cases h2 : init.2 < f c
      · rw [if_pos h2]
        exact opt_fold_snd_mono f ys (c, f c)
      · rw [if_neg h2]
        exact le_trans (not_lt.mp h2) (opt_fold_snd_mono f ys init)
    · exact ih _ c hmem hcpos

/-- The optimizer fold either returns its initial accumulator untouched or
a strictly improving positive tested volume with its own net profit. -/
theorem opt_fold_characterize (f : ℚ → ℚ) (l : List ℚ) (init : ℚ × ℚ) :
    l.foldl (fun best volume =>
      if volume ≤ 0 then best
      else if best.2 < f volume then (volume, f volume) else best) init = init ∨
    ((l.foldl (fun best volume =>
      if volume ≤ 0 then best
      else if best.2 < f volume then (volume, f volume) else best) init).1 ∈ l ∧
     0 < (l.foldl (fun best volume =>
      if volume ≤ 0 then best
      else if best.2 < f volume then (volume, f volume) else best) init).1 ∧
     (l.foldl (fun best volume =>
      if volume ≤ 0 then best
      else if best.2 < f volume then (volume, f volume) else best) init).2 =
       f (l.foldl (fun best volume =>
      if volume ≤ 0 then best
      else if best.2 < f volume then (volume, f volume) else best) init).1 ∧
     init.2 < (l.foldl (fun best volume =>
      if volume ≤ 0 then best
      else if best.2 < f volume then (volume, f volume) else best) init).2) := by
  induction l generalizing init with
  | nil => exact Or.inl rfl
  | cons y ys ih =>
    simp only [List.foldl_cons]
    by_cases h1 : y ≤ 0
    · rw [if_pos h1]
      rcases ih init with h | ⟨hm, hpos, heq, hlt⟩
      · exact Or.inl h
      · exact Or.inr ⟨List.mem_cons_of_mem _ hm, hpos, heq, hlt⟩
    · rw [if_neg h1]
      by_cases h2 : init.2 < f y
      · rw [if_pos h2]
        rcases ih (y, f y) with h | ⟨hm, hpos, heq, hlt⟩
        · rw [h]
          exact Or.inr ⟨List.mem_cons_self .., not_le.mp h1, rfl, h2⟩
        · exact Or.inr ⟨List.mem_cons_of_mem _ hm, hpos, heq, lt_trans h2 hlt⟩
      · rw [if_neg h2]
        rcases ih init with h | ⟨hm, hpos, heq, hlt⟩
        · exact Or.inl h
        · exact Or.inr ⟨List.mem_cons_of_mem _ hm, hpos, heq, hlt⟩

/-! Minimum-fold lemmas for the balance check. -/

theorem foldl_min_le_init (l : List ℚ) (a : ℚ) : l.foldl min a ≤ a := by
  induction l generalizing a with
  | nil => exact le_refl a
  | cons y ys ih => exact le_trans (ih (min a y)) (min_le_left a y)

theorem foldl_min_le_mem (l : List ℚ) (a : ℚ) : ∀ x ∈ l, l.foldl min a ≤ x := by
  induction l generalizing a with
  | nil => intro x hx; simp at hx
  | cons y ys ih =>
    intro x hx
    rcases List.mem_cons.mp hx with rfl | hx'
    · exact le_trans (foldl_min_le_init ys (min a x)) (min_le_right a x)
    · exact ih (min a y) x hx'

theorem foldl_min_mem_or (l : List ℚ) (a : ℚ) :
    l.foldl min a = a ∨ l.foldl min a ∈ l := by
  induction l generalizing a with
  | nil => exact Or.inl rfl
  | cons y ys ih =>
    rcases ih (min a y) with h | h
    · rcases min_choice a y with h' | h'
      · exact Or.inl (by rw [List.foldl_cons, h, h'])
      · right
        rw [List.foldl_cons, h, h']
        exact List.mem_cons_self ..
    · right
      exact List.mem_cons_of_mem _ (by rw [List.foldl_cons]; exact h)

/-- The computed executable amount is at most every balance on the path. -/
theorem get_max_executable_amount_le (wm : WalletManager) (path : List NodeId) :
    ∀ n ∈ path, wm.get_max_executable_amount path ≤ wm.get_balance n.1 n.2 := by
  intro n hn
  cases path with
  | nil => simp at hn
  | cons m rest =>
    unfold WalletManager.get_max_executable_amount
    rcases List.mem_cons.mp hn with rfl | hmem
    · exact foldl_min_le_init _ _
    · exact foldl_min_le_mem _ _ _ (List.mem_map_of_mem _ hmem)

/-- On a non-empty path the computed executable amount is one of the
balances: it is the path-wide minimum. -/
theorem get_max_executable_amount_mem (wm : WalletManager) (path : List NodeId)
    (h : path ≠ []) :
    ∃ n ∈ path, wm.get_max_executable_amount path = wm.get_balance n.1 n.2 := by
  cases path with
  | nil => exact absurd rfl h
  | cons m rest =>
    unfold WalletManager.get_max_executable_amount
    rcases foldl_min_mem_or (rest.map fun x => wm.get_balance x.1 x.2)
        (wm.get_balance m.1 m.2) with h' | h'
    · exact ⟨m, List.mem_cons_self .., h'⟩
    · obtain ⟨x, hx, hfx⟩ := List.mem_map.mp h'
      exact ⟨x, List.mem_cons_of_mem _ hx, hfx.symm⟩

/-- C8 (amended to non-empty paths): with the default tiered schedule in
effect, the net profit at every admissible volume is at most the best net
profit the optimizer finds among the candidate breakpoints, and the
optimizer returns (0, 0) or a positive candidate breakpoint achieving its
own positive net profit. -/
theorem optimize_volume_candidate_maximum (wm : WalletManager)
    (path : List NodeId) (base_profit_rate base_cost_rate available_funds v : ℚ)
    (hs : wm.fee_schedules = []) (hpath : path ≠ [])
    (hf : 0 < available_funds) (hv : 0 < v) (hvf : v ≤ available_funds) :
    wm.volume_net_profit path base_profit_rate base_cost_rate v ≤
      (wm.optimize_volume path base_profit_rate base_cost_rate available_funds).2 ∧
    (wm.optimize_volume path base_profit_rate base_cost_rate available_funds
        = (0, 0) ∨
      ((wm.optimize_volume path base_profit_rate base_cost_rate
          available_funds).1 ∈ test_volumes available_funds ∧
        0 < (wm.optimize_volume path base_profit_rate base_cost_rate
          available_funds).1 ∧
        (wm.optimize_volume path base_profit_rate base_cost_rate
          available_funds).2 =
          wm.volume_net_profit path base_profit_rate base_cost_rate
            (wm.optimize_volume path base_profit_rate base_cost_rate
              available_funds).1 ∧
        0 < (wm.optimize_volume path base_profit_rate base_cost_rate
          available_funds).2)) := by
  have hneg : ¬ (path = [] ∨ available_funds ≤ 0) := by
    push_neg
    exact ⟨hpath, hf⟩
  constructor
  · unfold WalletManager.optimize_volume
    rw [if_neg hneg]
    have hcase :
        wm.volume_net_profit path base_profit_rate base_cost_rate v ≤
          wm.volume_net_profit path base_profit_rate base_cost_rate
            available_funds ∨
        wm.volume_net_profit path base_profit_rate base_cost_rate v ≤ 0 := by
      rw [volume_net_profit_eq wm hs, volume_net_profit_eq wm hs]
      by_cases hr : 0 < base_profit_rate - base_cost_rate -
          path.length * default_fee_schedule v
      · left
        have hfees : default_fee_schedule available_funds ≤
            default_fee_schedule v := default_fee_schedule_antitone hvf
        have hn : (0 : ℚ) ≤ path.length := by positivity
        nlinarith [mul_le_mul_of_nonneg_left hfees hn]
      · right
        have hr' := not_lt.mp hr
        nlinarith
    rcases hcase with hle | hle
    · refine le_trans hle ?_
      exact opt_fold_ge_of_mem _ _ _ available_funds
        (funds_mem_test_volumes available_funds) hf
    · exact le_trans hle (opt_fold_snd_mono
        (wm.volume_net_profit path base_profit_rate base_cost_rate)
        (test_volumes available_funds) (0, 0))
  · unfold WalletManager.optimize_volume
    rw [if_neg hneg]
    rcases opt_fold_characterize
        (wm.volume_net_profit path base_profit_rate base_cost_rate)
        (test_volumes available_funds) (0, 0) with h | ⟨hm, hpos, heq, hlt⟩
    · exact Or.inl h
    · exact Or.inr ⟨hm, hpos, heq, hlt⟩

/-- Counterexample to C8 as stated for every path: on the empty path with
profit rate 1, cost rate 0 and funds 1000, the candidate breakpoint 1000
is admissible and nets 1000, yet optimize_volume returns (0, 0), so the
claimed bound and the claimed returned breakpoint both fail. -/
theorem optimize_volume_empty_path_counterexample :
    (WalletManager.mk [] []).optimize_volume [] 1 0 1000 = (0, 0) ∧
    (1000 : ℚ) ∈ test_volumes 1000 ∧
    ((0 : ℚ) < 1000 ∧ (1000 : ℚ) ≤ 1000) ∧
    (WalletManager.mk [] []).volume_net_profit [] 1 0 1000 = 1000 ∧
    ¬ ((WalletManager.mk [] []).volume_net_profit [] 1 0 1000 ≤
        ((WalletManager.mk [] []).optimize_volume [] 1 0 1000).2) := by
  decide!

/-- Witness for C8 (amended) with one node, the default schedule, profit
rate 0.01, cost rate 0.0005, funds 50,000 and tested volume 777. -/
theorem optimize_volume_candidate_maximum_witness :
    (WalletManager.mk [] []).volume_net_profit [("Kraken", "USDT")] 0.01 0.0005
        777 ≤
      ((WalletManager.mk [] []).optimize_volume [("Kraken", "USDT")] 0.01 0.0005
        50000).2 ∧
    ((WalletManager.mk [] []).optimize_volume [("Kraken", "USDT")] 0.01 0.0005
        50000 = (0, 0) ∨
      (((WalletManager.mk [] []).optimize_volume [("Kraken", "USDT")] 0.01
          0.0005 50000).1 ∈ test_volumes 50000 ∧
        0 < ((WalletManager.mk [] []).optimize_volume [("Kraken", "USDT")] 0.01
          0.0005 50000).1 ∧
        ((WalletManager.mk [] []).optimize_volume [("Kraken", "USDT")] 0.01
          0.0005 50000).2 =
          (WalletManager.mk [] []).volume_net_profit [("Kraken", "USDT")] 0.01
            0.0005
            (((WalletManager.mk [] []).optimize_volume [("Kraken", "USDT")] 0.01
              0.0005 50000).1) ∧
        0 < ((WalletManager.mk [] []).optimize_volume [("Kraken", "USDT")] 0.01
          0.0005 50000).2)) :=
  optimize_volume_candidate_maximum (WalletManager.mk [] [])
    [("Kraken", "USDT")] 0.01 0.0005 50000 777 rfl (by decide) (by decide)
    (by decide) (by decide)

/-- C9: evaluate_opportunity computes the path-wide minimum balance (at
most every balance, attained on non-empty paths); below the caller
threshold it returns the structured non-executable result as a value,
and otherwise its optimal volume and profit are exactly those of
optimize_volume run with the path-wide minimum as available funds. -/
theorem evaluate_opportunity_funds_gate (wm : WalletManager) (path : List NodeId)
    (predicted_profit_rate predicted_cost_rate min_amount : ℚ) :
    (wm.evaluate_opportunity path predicted_profit_rate predicted_cost_rate
        min_amount).max_amount = wm.get_max_executable_amount path ∧
    (∀ n ∈ path, wm.get_max_executable_amount path ≤ wm.get_balance n.1 n.2) ∧
    (path ≠ [] → ∃ n ∈ path,
      wm.get_max_executable_amount path = wm.get_balance n.1 n.2) ∧
    (wm.get_max_executable_amount path < min_amount →
      wm.evaluate_opportunity path predicted_profit_rate predicted_cost_rate
          min_amount =
        { executable := false, max_amount := wm.get_max_executable_amount path,
          optimal_volume := 0, optimal_profit := 0, can_execute := false,
          reason := "Insufficient funds" }) ∧
    (¬ wm.get_max_executable_amount path < min_amount →
      wm.evaluate_opportunity path predicted_profit_rate predicted_cost_rate
          min_amount =
        { executable := decide (0 < (wm.optimize_volume path
            predicted_profit_rate predicted_cost_rate
            (wm.get_max_executable_amount path)).2),
          max_amount := wm.get_max_executable_amount path,
          optimal_volume := (wm.optimize_volume path predicted_profit_rate
            predicted_cost_rate (wm.get_max_executable_amount path)).1,
          optimal_profit := (wm.optimize_volume path predicted_profit_rate
            predicted_cost_rate (wm.get_max_executable_amount path)).2,
          can_execute := true, reason := "Sufficient funds available" }) := by
  refine ⟨?_, get_max_executable_amount_le wm path,
    get_max_executable_amount_mem wm path, ?_, ?_⟩
  · unfold WalletManager.evaluate_opportunity
    by_cases h : wm.get_max_executable_amount path < min_amount
    · rw [if_pos h]
    · rw [if_neg h]
  · intro h
    unfold WalletManager.evaluate_opportunity
    rw [if_pos h]
  · intro h
    unfold WalletManager.evaluate_opportunity
    rw [if_neg h]

/-- A wallet with two balances used by the evaluate_opportunity witness. -/
def demo_wallet : WalletManager :=
  ⟨[(("Kraken", "USDT"), 500), (("Coinbase", "USDT"), 900)], []⟩

/-- Witness for C9: with balances 500 and 900 the path-wide minimum is
500; a threshold of 600 produces the non-executable record, a threshold
of 100 runs the optimizer on 500. -/
theorem evaluate_opportunity_funds_gate_witness :
    demo_wallet.evaluate_opportunity [("Kraken", "USDT"), ("Coinbase", "USDT")]
        0.01 0.0005 600 =
      { executable := false,
        max_amount := demo_wallet.get_max_executable_amount
          [("Kraken", "USDT"), ("Coinbase", "USDT")],
        optimal_volume := 0, optimal_profit := 0, can_execute := false,
        reason := "Insufficient funds" } ∧
    demo_wallet.evaluate_opportunity [("Kraken", "USDT"), ("Coinbase", "USDT")]
        0.01 0.0005 100 =
      { executable := decide (0 < (demo_wallet.optimize_volume
          [("Kraken", "USDT"), ("Coinbase", "USDT")] 0.01 0.0005
          (demo_wallet.get_max_executable_amount
            [("Kraken", "USDT"), ("Coinbase", "USDT")])).2),
        max_amount := demo_wallet.get_max_executable_amount
          [("Kraken", "USDT"), ("Coinbase", "USDT")],
        optimal_volume := (demo_wallet.optimize_volume
          [("Kraken", "USDT"), ("Coinbase", "USDT")] 0.01 0.0005
          (demo_wallet.get_max_executable_amount
            [("Kraken", "USDT"), ("Coinbase", "USDT")])).1,
        optimal_profit := (demo_wallet.optimize_volume
          [("Kraken", "USDT"), ("Coinbase", "USDT")] 0.01 0.0005
          (demo_wallet.get_max_executable_amount
            [("Kraken", "USDT"), ("Coinbase", "USDT")])).2,
        can_execute := true, reason := "Sufficient funds available" } :=
  ⟨(evaluate_opportunity_funds_gate demo_wallet
      [("Kraken", "USDT"), ("Coinbase", "USDT")] 0.01 0.0005 600).2.2.2.1
    (by decide!),
   (evaluate_opportunity_funds_gate demo_wallet
      [("Kraken", "USDT"), ("Coinbase", "USDT")] 0.01 0.0005 100).2.2.2.2
    (by decide!)⟩

/-! Embedding of src/algorithms/two_level_search.py. -/

/-- The distinct exchanges appearing among the graph's nodes (the source
builds a set; only membership is meaningful). -/
def graph_exchanges (g : ArbitrageGraph) : List String :=
  (g.nodes.map (fun kv => kv.2.exchange)).dedup

/-- The distinct stablecoins appearing among the graph's nodes. -/
def graph_stablecoins (g : ArbitrageGraph) : List String :=
  (g.nodes.map (fun kv => kv.2.stablecoin)).dedup

/-- The orchestrator's algorithm selector: the astar cost function when
asked for, the least-cost search for every other string. -/
def select_algorithm (algorithm : String) (g : ArbitrageGraph) (start : NodeId)
    (max_depth : ℤ) (volatility_factor : ℚ) (fuel : ℕ) : List Opportunity :=
  if algorithm = "astar" then
    astar_arbitrage g start max_depth volatility_factor fuel
  else dijkstra_arbitrage g start max_depth fuel

/-- The human-readable tag attached to each kept opportunity. -/
def pair_description (exchange1 stablecoin1 exchange2 stablecoin2 : String) :
    String :=
  exchange1 ++ "(" ++ stablecoin1 ++ ") -> " ++ exchange2 ++ "(" ++
    stablecoin2 ++ ")"

/-- A tagged opportunity of the orchestrator:
(path, net_profit, total_cost, description). -/
abbrev TaggedOpportunity := List NodeId × ℚ × ℚ × String

/-- Stable insertion for descending-net-profit order on tagged results. -/
def insertByProfit4 (x : TaggedOpportunity) :
    List TaggedOpportunity → List TaggedOpportunity
  | [] => [x]
  | y :: ys => if y.2.1 ≤ x.2.1 then x :: y :: ys else y :: insertByProfit4 x ys

/-- The orchestrator's final sort by descending net profit. -/
def sortByProfit4 : List TaggedOpportunity → List TaggedOpportunity
  | [] => []
  | x :: xs => insertByProfit4 x (sortByProfit4 xs)

/-- One inner iteration of the orchestrator: skip when either endpoint
fails to resolve, otherwise run the selected single-source search at the
start node, keep the opportunities whose path visits the target identity
and tag them. -/
def pair_opportunities (g : ArbitrageGraph) (algorithm : String) (max_depth : ℤ)
    (volatility_factor : ℚ) (fuel : ℕ)
    (exchange1 stablecoin1 exchange2 stablecoin2 : String) :
    List TaggedOpportunity :=
  match g.get_node exchange1 stablecoin1, g.get_node exchange2 stablecoin2 with
  | some _, some _ =>
      ((select_algorithm algorithm g (exchange1, stablecoin1) max_depth
          volatility_factor fuel).filter
        (fun o => decide ((exchange2, stablecoin2) ∈ o.1))).map
        (fun o => (o.1, o.2.1, o.2.2,
          pair_description exchange1 stablecoin1 exchange2 stablecoin2))
  | some _, none => []
  | none, some _ => []
  | none, none => []

/-- Embedding of two_level_search.two_level_search: every ordered pair of
distinct exchanges, every ordered pair of stablecoins, appending the
filtered tagged searches and finally sorting by descending net profit. -/
def two_level_search (g : ArbitrageGraph) (algorithm : String) (max_depth : ℤ)
    (volatility_factor : ℚ) (fuel : ℕ) : List TaggedOpportunity :=
  sortByProfit4
    ((graph_exchanges g).flatMap fun exchange1 =>
      (graph_exchanges g).flatMap fun exchange2 =>
        if exchange1 = exchange2 then []
        else
          (graph_stablecoins g).flatMap fun stablecoin1 =>
            (graph_stablecoins g).flatMap fun stablecoin2 =>
              pair_opportunities g algorithm max_depth volatility_factor fuel
                exchange1 stablecoin1 exchange2 stablecoin2)

/-- The specification's description of the orchestrator's aggregate: the
union, over ordered pairs of distinct exchanges and ordered pairs of
currencies whose start and target nodes both resolve, of the tagged
single-source searches rooted at the start node, keeping the cycles whose
path visits the target. -/
def orchestrator_union_spec (g : ArbitrageGraph) (algorithm : String)
    (max_depth : ℤ) (volatility_factor : ℚ) (fuel : ℕ)
    (x : TaggedOpportunity) : Prop :=
  ∃ exchange1 exchange2 stablecoin1 stablecoin2,
    exchange1 ∈ graph_exchanges g ∧ exchange2 ∈ graph_exchanges g ∧
    exchange1 ≠ exchange2 ∧
    stablecoin1 ∈ graph_stablecoins g ∧ stablecoin2 ∈ graph_stablecoins g ∧
    (g.get_node exchange1 stablecoin1).isSome ∧
    (g.get_node exchange2 stablecoin2).isSome ∧
    ∃ o ∈ select_algorithm algorithm g (exchange1, stablecoin1) max_depth
        volatility_factor fuel,
      (exchange2, stablecoin2) ∈ o.1 ∧
      x = (o.1, o.2.1, o.2.2,
        pair_description exchange1 stablecoin1 exchange2 stablecoin2)

theorem mem_insertByProfit4 {x y : TaggedOpportunity}
    {l : List TaggedOpportunity} :
    x ∈ insertByProfit4 y l ↔ x = y ∨ x ∈ l := by
  induction l with
  | nil => simp [insertByProfit4]
  | cons z zs ih =>
    by_cases h : z.2.1 ≤ y.2.1
    · simp [insertByProfit4, h]
    · simp only [insertByProfit4, h, if_neg, not_false_iff, List.mem_cons, ih]
      tauto

theorem mem_sortByProfit4 {x : TaggedOpportunity} {l : List TaggedOpportunity} :
    x ∈ sortByProfit4 l ↔ x ∈ l := by
  induction l with
  | nil => simp [sortByProfit4]
  | cons z zs ih => simp [sortByProfit4, mem_insertByProfit4, ih]

theorem mem_if_nil {α : Type} {c : Prop} [Decidable c]
    {l : List α} {x : α} :
    x ∈ (if c then ([] : List α) else l) ↔ ¬ c ∧ x ∈ l := by
  by_cases h : c <;> simp [h]

theorem mem_pair_opportunities {g : ArbitrageGraph} {algorithm : String}
    {max_depth : ℤ} {volatility_factor : ℚ} {fuel : ℕ}
    {exchange1 stablecoin1 exchange2 stablecoin2 : String}
    {x : TaggedOpportunity} :
    x ∈ pair_opportunities g algorithm max_depth volatility_factor fuel
        exchange1 stablecoin1 exchange2 stablecoin2 ↔
      ((g.get_node exchange1 stablecoin1).isSome ∧
        (g.get_node exchange2 stablecoin2).isSome ∧
        ∃ o ∈ select_algorithm algorithm g (exchange1, stablecoin1) max_depth
            volatility_factor fuel,
          (exchange2, stablecoin2) ∈ o.1 ∧
          x = (o.1, o.2.1, o.2.2,
            pair_description exchange1 stablecoin1 exchange2 stablecoin2)) := by
  unfold pair_opportunities
  cases h1 : g.get_node exchange1 stablecoin1 with
  | none => cases h2 : g.get_node exchange2 stablecoin2 <;> simp [h1, h2]
  | some n1 =>
    cases h2 : g.get_node exchange2 stablecoin2 with
    | none => simp [h2]
    | some n2 =>
      simp only [Option.isSome_some, true_and, List.mem_map, List.mem_filter,
        decide_eq_true_iff]
      constructor
      · rintro ⟨o, ⟨ho, hmem⟩, rfl⟩
        exact ⟨o, ho, hmem, rfl⟩
      · rintro ⟨o, ho, hmem, rfl⟩
        exact ⟨o, ⟨ho, hmem⟩, rfl⟩

/-- Every path a search emits begins at the root node. -/
theorem searchLoop_paths_start (g : ArbitrageGraph) (start : NodeId)
    (max_depth : ℤ) (push_key : ℚ → NodeId → NodeId → Edge → ℚ) (fuel : ℕ) :
    ∀ o ∈ searchLoop g start max_depth push_key fuel (initialFrontier start) [] [],
      o.1.head? = some start := by
  intro o ho
  refine searchLoop_inv g start max_depth push_key
    (fun st => st.path.head? = some start) (fun o' => o'.1.head? = some start)
    ?_ ?_ fuel _ [] [] ?_ (fun o' ho' => absurd ho' (List.not_mem_nil o')) o ho
  · intro st e hst _ _ _
    simp only [succState]
    cases hpath : st.path with
    | nil => rw [hpath] at hst; simp at hst
    | cons a rest =>
      rw [hpath] at hst
      simpa using hst
  · intro st hst _ _ _
    exact hst
  · intro st hst
    simp only [initialFrontier, List.mem_singleton] at hst
    subst hst
    rfl

/-- Every path either selected search emits begins at the root node. -/
theorem select_algorithm_paths_start (algorithm : String) (g : ArbitrageGraph)
    (start : NodeId) (max_depth : ℤ) (volatility_factor : ℚ) (fuel : ℕ) :
    ∀ o ∈ select_algorithm algorithm g start max_depth volatility_factor fuel,
      o.1.head? = some start := by
  intro o ho
  unfold select_algorithm at ho
  by_cases h : algorithm = "astar"
  · rw [if_pos h] at ho
    unfold astar_arbitrage at ho
    rw [mem_sortByProfit] at ho
    exact searchLoop_paths_start g start max_depth _ fuel o ho
  · rw [if_neg h] at ho
    unfold dijkstra_arbitrage at ho
    rw [mem_sortByProfit] at ho
    exact searchLoop_paths_start g start max_depth _ fuel o ho

/-- C10: membership in the orchestrator's aggregate is exactly membership
in the union described by the specification, and every aggregated entry is
an opportunity a direct single-source call rooted at its own path's first
node also produces. -/
theorem two_level_search_refines_union (g : ArbitrageGraph) (algorithm : String)
    (max_depth : ℤ) (volatility_factor : ℚ) (fuel : ℕ) :
    (∀ x, x ∈ two_level_search g algorithm max_depth volatility_factor fuel ↔
      orchestrator_union_spec g algorithm max_depth volatility_factor fuel x) ∧
    (∀ x ∈ two_level_search g algorithm max_depth volatility_factor fuel,
      ∃ s : NodeId, x.1.head? = some s ∧
        (x.1, x.2.1, x.2.2.1) ∈
          select_algorithm algorithm g s max_depth volatility_factor fuel) := by
  have hmem : ∀ x, x ∈ two_level_search g algorithm max_depth volatility_factor
      fuel ↔ orchestrator_union_spec g algorithm max_depth volatility_factor
      fuel x := by
    intro x
    unfold two_level_search orchestrator_union_spec
    rw [mem_sortByProfit4]
    simp only [List.mem_flatMap, mem_if_nil, mem_pair_opportunities]
    constructor
    · rintro ⟨e1, he1, e2, he2, hne, c1, hc1, c2, hc2, h1, h2, o, ho, hm, rfl⟩
      exact ⟨e1, e2, c1, c2, he1, he2, hne, hc1, hc2, h1, h2, o, ho, hm, rfl⟩
    · rintro ⟨e1, e2, c1, c2, he1, he2, hne, hc1, hc2, h1, h2, o, ho, hm, rfl⟩
      exact ⟨e1, he1, e2, he2, hne, c1, hc1, c2, hc2, h1, h2, o, ho, hm, rfl⟩
  refine ⟨hmem, ?_⟩
  intro x hx
  obtain ⟨e1, e2, c1, c2, _, _, _, _, _, _, _, o, ho, _, hxo⟩ := (hmem x).mp hx
  refine ⟨(e1, c1), ?_, ?_⟩
  · rw [hxo]
    exact select_algorithm_paths_start algorithm g (e1, c1) max_depth
      volatility_factor fuel o ho
  · rw [hxo]
    exact ho

/-- Witness for C10 at the negative-fee graph with the least-cost
selector: the aggregated two-hop cycle is also produced by the direct
single-source call rooted at its path's first node. -/
theorem two_level_search_refines_union_witness :
    (([("E1", "X"), ("E2", "X"), ("E1", "X")], (2 : ℚ), (-2 : ℚ),
        "E1(X) -> E2(X)") ∈
      two_level_search negative_fee_graph "dijkstra" 10 0.1 30) ∧
    (∃ s : NodeId,
      ([("E1", "X"), ("E2", "X"), ("E1", "X")] : List NodeId).head? = some s ∧
      ([("E1", "X"), ("E2", "X"), ("E1", "X")], (2 : ℚ), (-2 : ℚ)) ∈
        select_algorithm "dijkstra" negative_fee_graph s 10 0.1 30) :=
  ⟨by decide!,
   (two_level_search_refines_union negative_fee_graph "dijkstra" 10 0.1 30).2
     ([("E1", "X"), ("E2", "X"), ("E1", "X")], (2 : ℚ), (-2 : ℚ),
       "E1(X) -> E2(X)")
     (by decide!)⟩

/-! Exact model of the heapq frontier.

The totalized searches above order the frontier by the numeric priority
alone; that is sound for order-independent properties, but the source
pushes whole tuples into heapq, and ExchangeNode supports equality only —
not ordering.  When a sift compares two entries whose leading numeric
components are equal, CPython tuple comparison falls through to comparing
the node objects (or the path lists) and raises TypeError.  The
definitions below reproduce CPython heapq (heappush, heappop, _siftdown,
_siftup) over a list used as the array, with the partial tuple comparison
embedded as an Except value, so the searches' reachable error paths are
modelled exactly. -/

/-- CPython comparison of two paths (lists of ExchangeNode): walk the
lists; at the first differing position the node comparison raises
TypeError; a strict prefix compares by length. -/
def pathTupleLt : List NodeId → List NodeId → Except String Bool
  | [], [] => Except.ok false
  | [], _ :: _ => Except.ok true
  | _ :: _, [] => Except.ok false
  | a :: as, b :: bs =>
    if a = b then pathTupleLt as bs else Except.error "TypeError"

/-- CPython comparison of the (node, path, depth) tail shared by the
frontier tuples: equal nodes move on to the paths, distinct nodes raise
TypeError; equal paths move on to the integer depths. -/
def nodeTailLt (a b : SearchState) : Except String Bool :=
  if a.node = b.node then
    if a.path = b.path then Except.ok (decide (a.depth < b.depth))
    else pathTupleLt a.path b.path
  else Except.error "TypeError"

/-- CPython comparison of the Dijkstra frontier tuples
(total_cost, node, path, depth); the leading component is the priority
(stored in f_cost, equal to total_cost for this search). -/
def tupleLtDijkstra (a b : SearchState) : Except String Bool :=
  if a.f_cost = b.f_cost then nodeTailLt a b
  else Except.ok (decide (a.f_cost < b.f_cost))

/-- CPython comparison of the A* frontier tuples
(f_cost, total_cost, node, path, depth): ties in f fall through to the
numeric total cost before any node is compared. -/
def tupleLtAstar (a b : SearchState) : Except String Bool :=
  if a.f_cost = b.f_cost then
    if a.total_cost = b.total_cost then nodeTailLt a b
    else Except.ok (decide (a.total_cost < b.total_cost))
  else Except.ok (decide (a.f_cost < b.f_cost))

/-- CPython heapq._siftdown walking newitem up from pos towards startpos;
newitem is the value stored at pos on entry.  The fuel argument equals pos
at the outer call: the position strictly decreases at each step, so the
loop is reproduced exactly. -/
def siftdownGo (cmp : SearchState → SearchState → Except String Bool) :
    ℕ → ℕ → ℕ → SearchState → List SearchState →
      Except String (List SearchState)
  | 0, _, pos, newitem, heap => Except.ok (heap.set pos newitem)
  | fuel + 1, startpos, pos, newitem, heap =>
    if startpos < pos then
      match heap[(pos - 1) / 2]? with
      | none => Except.error "IndexError"
      | some parent =>
        match cmp newitem parent with
        | Except.error msg => Except.error msg
        | Except.ok true =>
          siftdownGo cmp fuel startpos ((pos - 1) / 2) newitem
            (heap.set pos parent)
        | Except.ok false => Except.ok (heap.set pos newitem)
    else Except.ok (heap.set pos newitem)

/-- CPython heapq._siftdown(heap, startpos, pos). -/
def siftdownE (cmp : SearchState → SearchState → Except String Bool)
    (heap : List SearchState) (startpos pos : ℕ) (newitem : SearchState) :
    Except String (List SearchState) :=
  siftdownGo cmp pos startpos pos newitem heap

/-- CPython heapq._siftup inner loop: move the smaller child up until a
leaf is reached; the fuel argument equals endpos at the outer call and
the position strictly increases, so the loop is reproduced exactly. -/
def siftupGo (cmp : SearchState → SearchState → Except String Bool)
    (startpos endpos : ℕ) :
    ℕ → ℕ → SearchState → List SearchState → Except String (List SearchState)
  | 0, pos, newitem, heap => siftdownE cmp (heap.set pos newitem) startpos pos newitem
  | fuel + 1, pos, newitem, heap =>
    if 2 * pos + 1 < endpos then
      match
        (if 2 * pos + 2 < endpos then
          match heap[2 * pos + 1]?, heap[2 * pos + 2]? with
          | some cl, some cr =>
            match cmp cl cr with
            | Except.error msg => Except.error msg
            | Except.ok b => Except.ok (if b then 2 * pos + 1 else 2 * pos + 2)
          | _, _ => Except.error "IndexError"
        else Except.ok (2 * pos + 1)) with
      | Except.error msg => Except.error msg
      | Except.ok childpos =>
        match heap[childpos]? with
        | none => Except.error "IndexError"
        | some child =>
          siftupGo cmp startpos endpos fuel childpos newitem (heap.set pos child)
    else siftdownE cmp (heap.set pos newitem) startpos pos newitem

/-- CPython heapq._siftup(heap, pos). -/
def siftupE (cmp : SearchState → SearchState → Except String Bool)
    (heap : List SearchState) (pos : ℕ) : Except String (List SearchState) :=
  match heap[pos]? with
  | none => Except.error "IndexError"
  | some newitem => siftupGo cmp pos heap.length heap.length pos newitem heap

/-- CPython heapq.heappush: append, then sift the new item up from the
last position. -/
def heappushE (cmp : SearchState → SearchState → Except String Bool)
    (heap : List SearchState) (item : SearchState) :
    Except String (List SearchState) :=
  siftdownE cmp (heap ++ [item]) 0 heap.length item

/-- CPython heapq.heappop: pop the last element; on a non-empty remainder
return the root, move the last element to the root and sift it up. -/
def heappopE (cmp : SearchState → SearchState → Except String Bool)
    (heap : List SearchState) :
    Except String (SearchState × List SearchState) :=
  match heap.getLast? with
  | none => Except.error "IndexError"
  | some lastelt =>
    match heap.dropLast with
    | [] => Except.ok (lastelt, [])
    | returnitem :: rest =>
      match siftupE cmp ((returnitem :: rest).set 0 lastelt) 0 with
      | Except.error msg => Except.error msg
      | Except.ok heap' => Except.ok (returnitem, heap')

/-- Push every admissible successor of a popped state onto the exact heap,
in edge order, propagating any comparison error. -/
def pushEdgesE (g : ArbitrageGraph)
    (cmp : SearchState → SearchState → Except String Bool)
    (push_key : ℚ → NodeId → NodeId → Edge → ℚ) (st : SearchState) :
    List Edge → List SearchState → Except String (List SearchState)
  | [], frontier => Except.ok frontier
  | e :: es, frontier =>
    if e.weight < g.price st.node - g.price e.target then
      match heappushE cmp frontier (succState push_key st e) with
      | Except.error msg => Except.error msg
      | Except.ok frontier' => pushEdgesE g cmp push_key st es frontier'
    else pushEdgesE g cmp push_key st es frontier

/-- The shared traversal loop over the exact heapq frontier: identical
branch structure to searchLoop, but pops and pushes go through the exact
heap operations and propagate their TypeError.  An empty frontier ends the
while-loop; exhausted fuel is reported as its own error so that a
normally-returned list always corresponds to genuine termination. -/
def searchLoopE (g : ArbitrageGraph) (start : NodeId) (max_depth : ℤ)
    (cmp : SearchState → SearchState → Except String Bool)
    (push_key : ℚ → NodeId → NodeId → Edge → ℚ) :
    ℕ → List SearchState → List (NodeId × ℕ) → List Opportunity →
      Except String (List Opportunity)
  | _, [], _, opportunities => Except.ok opportunities
  | 0, _ :: _, _, _ => Except.error "OutOfFuel"
  | fuel + 1, st₀ :: rest₀, visited, opportunities =>
    match heappopE cmp (st₀ :: rest₀) with
    | Except.error msg => Except.error msg
    | Except.ok (st, frontier') =>
      if (st.node, st.depth) ∈ visited then
        searchLoopE g start max_depth cmp push_key fuel frontier' visited
          opportunities
      else
        if 1 < st.path.length ∧ st.node = start then
          searchLoopE g start max_depth cmp push_key fuel frontier'
            ((st.node, st.depth) :: visited)
            (if 0 < g.price start - g.price start * (1 + st.total_cost) then
              opportunities ++
                [(st.path,
                  g.price start - g.price start * (1 + st.total_cost),
                  st.total_cost)]
            else opportunities)
        else if max_depth ≤ (st.depth : ℤ) then
          searchLoopE g start max_depth cmp push_key fuel frontier'
            ((st.node, st.depth) :: visited) opportunities
        else
          match pushEdgesE g cmp push_key st (g.node_edges st.node) frontier' with
          | Except.error msg => Except.error msg
          | Except.ok frontier'' =>
            searchLoopE g start max_depth cmp push_key fuel frontier''
              ((st.node, st.depth) :: visited) opportunities

/-- Exact model of dijkstra_arbitrage, with the heapq frontier and its
partial tuple comparison reproduced. -/
def dijkstra_arbitrage_exact (g : ArbitrageGraph) (start : NodeId)
    (max_depth : ℤ) (fuel : ℕ) : Except String (List Opportunity) :=
  match searchLoopE g start max_depth tupleLtDijkstra (fun new_cost _ _ _ => new_cost)
      fuel (initialFrontier start) [] [] with
  | Except.error msg => Except.error msg
  | Except.ok l => Except.ok (sortByProfit l)

/-- Exact model of astar_arbitrage. -/
def astar_arbitrage_exact (g : ArbitrageGraph) (start : NodeId) (max_depth : ℤ)
    (volatility_factor : ℚ) (fuel : ℕ) : Except String (List Opportunity) :=
  match searchLoopE g start max_depth tupleLtAstar
      (fun new_cost current neighbor e =>
        new_cost + volatility_heuristic g current neighbor e volatility_factor)
      fuel (initialFrontier start) [] [] with
  | Except.error msg => Except.error msg
  | Except.ok l => Except.ok (sortByProfit l)

/-- Exact model of weighted_astar_arbitrage. -/
def weighted_astar_arbitrage_exact (g : ArbitrageGraph) (start : NodeId)
    (max_depth : ℤ) (volatility_factor weight : ℚ) (fuel : ℕ) :
    Except String (List Opportunity) :=
  match searchLoopE g start max_depth tupleLtAstar
      (fun new_cost current neighbor e =>
        new_cost + weight * volatility_heuristic g current neighbor e volatility_factor)
      fuel (initialFrontier start) [] [] with
  | Except.error msg => Except.error msg
  | Except.ok l => Except.ok (sortByProfit l)

/-- A node with two equal-fee admissible edges to two distinct neighbors:
the second heappush compares two equal-priority tuples and the node
comparison raises TypeError in the source. -/
def tie_graph : ArbitrageGraph :=
  let g1 := (ArbitrageGraph.empty.add_node "S" "USD" 10).1
  let g2 := (g1.add_node "L1" "USD" 0).1
  let g3 := (g2.add_node "L2" "USD" 0).1
  let g4 := (g3.add_edge "S" "USD" "L1" "USD" 1 0 0).1
  (g4.add_edge "S" "USD" "L2" "USD" 1 0 0).1

deriving instance DecidableEq for Except

/-! Membership lemmas for the exact heap operations: every element of a
heap after a push is an old element or the pushed item, and a pop returns
an element of the heap together with a sub-multiset of it.  Sifts move
elements between positions, so only membership is tracked. -/

theorem mem_of_getLast? {α : Type} {l : List α} {a : α}
    (h : l.getLast? = some a) : a ∈ l := by
  induction l with
  | nil => simp at h
  | cons x xs ih =>
    cases xs with
    | nil =>
      simp only [List.getLast?_singleton] at h
      obtain rfl : x = a := Option.some.inj h
      exact List.mem_cons_self ..
    | cons y ys =>
      rw [List.getLast?_cons_cons] at h
      exact List.mem_cons_of_mem _ (ih h)

theorem siftdownGo_subset
    {cmp : SearchState → SearchState → Except String Bool} :
    ∀ {fuel startpos pos : ℕ} {newitem : SearchState}
      {heap heap' : List SearchState},
      siftdownGo cmp fuel startpos pos newitem heap = Except.ok heap' →
      ∀ y ∈ heap', y ∈ heap ∨ y = newitem := by
  intro fuel
  induction fuel with
  | zero =>
    intro startpos pos newitem heap heap' h y hy
    simp only [siftdownGo] at h
    cases h
    exact List.mem_or_eq_of_mem_set hy
  | succ fuel ih =>
    intro startpos pos newitem heap heap' h y hy
    simp only [siftdownGo] at h
    by_cases hpos : startpos < pos
    · rw [if_pos hpos] at h
      cases hget : heap[(pos - 1) / 2]? with
      | none => simp [hget] at h
      | some parent =>
        simp only [hget] at h
        cases hcmp : cmp newitem parent with
        | error msg => simp [hcmp] at h
        | ok b =>
          simp only [hcmp] at h
          cases b with
          | true =>
            rcases ih h y hy with h' | h'
            · rcases List.mem_or_eq_of_mem_set h' with h'' | h''
              · exact Or.inl h''
              · exact Or.inl (h'' ▸ List.getElem?_mem hget)
            · exact Or.inr h'
          | false =>
            cases h
            exact List.mem_or_eq_of_mem_set hy
    · rw [if_neg hpos] at h
      cases h
      exact List.mem_or_eq_of_mem_set hy

theorem siftdownE_subset
    {cmp : SearchState → SearchState → Except String Bool}
    {heap : List SearchState} {startpos pos : ℕ} {newitem : SearchState}
    {heap' : List SearchState}
    (h : siftdownE cmp heap startpos pos newitem = Except.ok heap') :
    ∀ y ∈ heap', y ∈ heap ∨ y = newitem :=
  siftdownGo_subset h

theorem siftupGo_subset
    {cmp : SearchState → SearchState → Except String Bool}
    {startpos endpos : ℕ} :
    ∀ {fuel pos : ℕ} {newitem : SearchState} {heap heap' : List SearchState},
      siftupGo cmp startpos endpos fuel pos newitem heap = Except.ok heap' →
      ∀ y ∈ heap', y ∈ heap ∨ y = newitem := by
  intro fuel
  induction fuel with
  | zero =>
    intro pos newitem heap heap' h y hy
    simp only [siftupGo] at h
    rcases siftdownE_subset h y hy with h' | h'
    · rcases List.mem_or_eq_of_mem_set h' with h'' | h''
      · exact Or.inl h''
      · exact Or.inr h''
    · exact Or.inr h'
  | succ fuel ih =>
    intro pos newitem heap heap' h y hy
    simp only [siftupGo] at h
    by_cases hlt : 2 * pos + 1 < endpos
    · rw [if_pos hlt] at h
      by_cases hrt : 2 * pos + 2 < endpos
      · rw [if_pos hrt] at h
        cases hcl : heap[2 * pos + 1]? with
        | none =>
          cases hcr : heap[2 * pos + 2]? with
          | none => simp [hcl, hcr] at h
          | some cr => simp [hcl, hcr] at h
        | some cl =>
          cases hcr : heap[2 * pos + 2]? with
          | none => simp [hcl, hcr] at h
          | some cr =>
            simp only [hcl, hcr] at h
            cases hcmp : cmp cl cr with
            | error msg => simp [hcmp] at h
            | ok b =>
              simp only [hcmp] at h
              cases hget : heap[if b then 2 * pos + 1 else 2 * pos + 2]? with
              | none => simp [hget] at h
              | some child =>
                simp only [hget] at h
                rcases ih h y hy with h' | h'
                · rcases List.mem_or_eq_of_mem_set h' with h'' | h''
                  · exact Or.inl h''
                  · exact Or.inl (h'' ▸ List.getElem?_mem hget)
                · exact Or.inr h'
      · rw [if_neg hrt] at h
        cases hget : heap[2 * pos + 1]? with
        | none => simp [hget] at h
        | some child =>
          simp only [hget] at h
          rcases ih h y hy with h' | h'
          · rcases List.mem_or_eq_of_mem_set h' with h'' | h''
            · exact Or.inl h''
            · exact Or.inl (h'' ▸ List.getElem?_mem hget)
          · exact Or.inr h'
    · rw [if_neg hlt] at h
      rcases siftdownE_subset h y hy with h' | h'
      · rcases List.mem_or_eq_of_mem_set h' with h'' | h''
        · exact Or.inl h''
        · exact Or.inr h''
      · exact Or.inr h'

theorem heappushE_subset
    {cmp : SearchState → SearchState → Except String Bool}
    {heap : List SearchState} {item : SearchState} {heap' : List SearchState}
    (h : heappushE cmp heap item = Except.ok heap') :
    ∀ y ∈ heap', y ∈ heap ∨ y = item := by
  intro y hy
  rcases siftdownGo_subset h y hy with h' | h'
  · rcases List.mem_append.mp h' with h'' | h''
    · exact Or.inl h''
    · exact Or.inr (List.mem_singleton.mp h'')
  · exact Or.inr h'

theorem heappopE_mem
    {cmp : SearchState → SearchState → Except String Bool}
    {heap : List SearchState} {x : SearchState} {heap' : List SearchState}
    (h : heappopE cmp heap = Except.ok (x, heap')) :
    x ∈ heap ∧ ∀ y ∈ heap', y ∈ heap := by
  unfold heappopE at h
  cases hlast : heap.getLast? with
  | none => simp [hlast] at h
  | some lastelt =>
    simp only [hlast] at h
    have hlmem : lastelt ∈ heap := mem_of_getLast? hlast
    cases hdrop : heap.dropLast with
    | nil =>
      simp only [hdrop] at h
      cases h
      exact ⟨hlmem, fun y hy => absurd hy (List.not_mem_nil y)⟩
    | cons returnitem rest =>
      simp only [hdrop] at h
      have hsub : ∀ y ∈ returnitem :: rest, y ∈ heap := by
        intro y hy
        rw [← hdrop] at hy
        exact List.dropLast_subset heap hy
      have hstep : ∀ z ∈ lastelt :: rest, z ∈ heap := by
        intro z hz
        rcases List.mem_cons.mp hz with rfl | hz'
        · exact hlmem
        · exact hsub z (List.mem_cons_of_mem _ hz')
      revert h
      cases hsift : siftupE cmp ((returnitem :: rest).set 0 lastelt) 0 with
      | error msg =>
        intro h
        simp at h
      | ok h2 =>
        intro h
        simp only [Except.ok.injEq, Prod.mk.injEq] at h
        obtain ⟨rfl, rfl⟩ := h
        refine ⟨hsub _ (List.mem_cons_self ..), ?_⟩
        intro y hy
        rw [List.set_cons_zero] at hsift
        unfold siftupE at hsift
        simp only [List.getElem?_cons_zero] at hsift
        rcases siftupGo_subset hsift y hy with h' | h'
        · exact hstep y h'
        · rw [h']
          exact hlmem


/-- Every state on the heap after pushing the admissible successors is an
old state or an admitted successor. -/
theorem pushEdgesE_subset {g : ArbitrageGraph}
    {cmp : SearchState → SearchState → Except String Bool}
    {push_key : ℚ → NodeId → NodeId → Edge → ℚ} {st : SearchState} :
    ∀ {es : List Edge} {frontier frontier' : List SearchState},
      pushEdgesE g cmp push_key st es frontier = Except.ok frontier' →
      ∀ y ∈ frontier', y ∈ frontier ∨ ∃ e ∈ es,
        e.weight < g.price st.node - g.price e.target ∧
        y = succState push_key st e := by
  intro es
  induction es with
  | nil =>
    intro frontier frontier' h y hy
    simp only [pushEdgesE] at h
    cases h
    exact Or.inl hy
  | cons e rest ih =>
    intro frontier frontier' h y hy
    simp only [pushEdgesE] at h
    by_cases hc : e.weight < g.price st.node - g.price e.target
    · rw [if_pos hc] at h
      cases hpush : heappushE cmp frontier (succState push_key st e) with
      | error msg => rw [hpush] at h; cases h
      | ok frontier₁ =>
        rw [hpush] at h
        rcases ih h y hy with h' | ⟨e', he', hc', hy'⟩
        · rcases heappushE_subset hpush y h' with h'' | h''
          · exact Or.inl h''
          · exact Or.inr ⟨e, List.mem_cons_self .., hc, h''⟩
        · exact Or.inr ⟨e', List.mem_cons_of_mem _ he', hc', hy'⟩
    · rw [if_neg hc] at h
      rcases ih h y hy with h' | ⟨e', he', hc', hy'⟩
      · exact Or.inl h'
      · exact Or.inr ⟨e', List.mem_cons_of_mem _ he', hc', hy'⟩

/-- The exact loop on an exhausted frontier returns its accumulator. -/
theorem searchLoopE_nil (g : ArbitrageGraph) (start : NodeId) (max_depth : ℤ)
    (cmp : SearchState → SearchState → Except String Bool)
    (push_key : ℚ → NodeId → NodeId → Edge → ℚ) (fuel : ℕ)
    (visited : List (NodeId × ℕ)) (opportunities : List Opportunity) :
    searchLoopE g start max_depth cmp push_key fuel [] visited opportunities =
      Except.ok opportunities := by
  cases fuel <;> rfl

/-- Generic invariant of the exact traversal loop: a property preserved by
admitted successors, together with a property of every emitted cycle,
holds of every opportunity of a normally returned list, whatever order the
heap served the frontier in and wherever an error could have struck. -/
theorem searchLoopE_inv (g : ArbitrageGraph) (start : NodeId) (max_depth : ℤ)
    (cmp : SearchState → SearchState → Except String Bool)
    (push_key : ℚ → NodeId → NodeId → Edge → ℚ)
    (P : SearchState → Prop) (Q : Opportunity → Prop)
    (hsucc : ∀ st e, P st → e ∈ g.node_edges st.node →
      e.weight < g.price st.node - g.price e.target →
      ¬ max_depth ≤ (st.depth : ℤ) → P (succState push_key st e))
    (hemit : ∀ st, P st → 1 < st.path.length → st.node = start →
      0 < g.price start - g.price start * (1 + st.total_cost) →
      Q (st.path, g.price start - g.price start * (1 + st.total_cost),
        st.total_cost)) :
    ∀ (fuel : ℕ) (frontier : List SearchState) (visited : List (NodeId × ℕ))
      (opportunities : List Opportunity),
      (∀ st ∈ frontier, P st) → (∀ o ∈ opportunities, Q o) →
      ∀ l, searchLoopE g start max_depth cmp push_key fuel frontier visited
          opportunities = Except.ok l →
        ∀ o ∈ l, Q o := by
  intro fuel
  induction fuel with
  | zero =>
    intro frontier visited opportunities hfr hopp l hl o ho
    match frontier with
    | [] =>
      rw [searchLoopE_nil] at hl
      cases hl
      exact hopp o ho
    | st₀ :: rest₀ => cases hl
  | succ fuel ih =>
    intro frontier visited opportunities hfr hopp l hl o ho
    match frontier with
    | [] =>
      rw [searchLoopE_nil] at hl
      cases hl
      exact hopp o ho
    | st₀ :: rest₀ =>
      simp only [searchLoopE] at hl
      cases hpop : heappopE cmp (st₀ :: rest₀) with
      | error msg => simp [hpop] at hl
      | ok pair =>
        obtain ⟨st, frontier'⟩ := pair
        simp only [hpop] at hl
        obtain ⟨hstmem, hsub⟩ := heappopE_mem hpop
        have hst : P st := hfr st hstmem
        have hrest : ∀ s ∈ frontier', P s := fun s hs => hfr s (hsub s hs)
        by_cases hv : (st.node, st.depth) ∈ visited
        · rw [if_pos hv] at hl
          exact ih frontier' visited opportunities hrest hopp l hl o ho
        · rw [if_neg hv] at hl
          by_cases hcycle : 1 < st.path.length ∧ st.node = start
          · rw [if_pos hcycle] at hl
            refine ih frontier' _ _ hrest ?_ l hl o ho
            intro o' ho'
            by_cases hpos :
                0 < g.price start - g.price start * (1 + st.total_cost)
            · rw [if_pos hpos] at ho'
              rcases List.mem_append.mp ho' with h | h
              · exact hopp o' h
              · rcases List.mem_singleton.mp h with rfl
                exact hemit st hst hcycle.1 hcycle.2 hpos
            · rw [if_neg hpos] at ho'
              exact hopp o' ho'
          · rw [if_neg hcycle] at hl
            by_cases hdepth : max_depth ≤ (st.depth : ℤ)
            · rw [if_pos hdepth] at hl
              exact ih frontier' _ _ hrest hopp l hl o ho
            · rw [if_neg hdepth] at hl
              cases hpush : pushEdgesE g cmp push_key st (g.node_edges st.node)
                  frontier' with
              | error msg => simp [hpush] at hl
              | ok frontier'' =>
                simp only [hpush] at hl
                refine ih frontier'' _ _ ?_ hopp l hl o ho
                intro s hs
                rcases pushEdgesE_subset hpush s hs with h | ⟨e, he, hc, rfl⟩
                · exact hrest s h
                · exact hsucc st e hst he hc hdepth

/-- A list of node identities is an edge chain when every consecutive pair
is connected by a stored outgoing edge. -/
def EdgeChain (g : ArbitrageGraph) : List NodeId → Prop
  | [] => True
  | [_] => True
  | a :: b :: rest => (∃ e ∈ g.node_edges a, e.target = b) ∧ EdgeChain g (b :: rest)

/-- A cycle through the start node that the graph's edges can realize:
exactly what a search would have to traverse to emit an opportunity. -/
def HasStartCycle (g : ArbitrageGraph) (start : NodeId) : Prop :=
  ∃ p : List NodeId, EdgeChain g p ∧ p.head? = some start ∧
    p.getLast? = some start ∧ 1 < p.length

theorem edgeChain_append {g : ArbitrageGraph} {a t : NodeId} :
    ∀ {p : List NodeId}, EdgeChain g p → p.getLast? = some a →
      (∃ e ∈ g.node_edges a, e.target = t) → EdgeChain g (p ++ [t]) := by
  intro p
  induction p with
  | nil => intro _ hlast _; simp at hlast
  | cons x xs ih =>
    intro hc hlast he
    cases xs with
    | nil =>
      simp only [List.getLast?_singleton] at hlast
      obtain rfl : x = a := Option.some.inj hlast
      exact ⟨he, trivial⟩
    | cons y ys =>
      rw [List.getLast?_cons_cons] at hlast
      exact ⟨hc.1, ih hc.2 hlast he⟩

theorem edgeChain_last_edge {g : ArbitrageGraph} {t : NodeId} :
    ∀ {p : List NodeId}, EdgeChain g p → 1 < p.length →
      p.getLast? = some t → ∃ a : NodeId, ∃ e ∈ g.node_edges a, e.target = t := by
  intro p
  induction p with
  | nil => intro _ hlen _; simp at hlen
  | cons x xs ih =>
    intro hc hlen hlast
    cases xs with
    | nil => simp at hlen
    | cons y ys =>
      cases ys with
      | nil =>
        rw [List.getLast?_cons_cons, List.getLast?_singleton] at hlast
        obtain rfl : y = t := Option.some.inj hlast
        exact ⟨x, hc.1⟩
      | cons z zs =>
        rw [List.getLast?_cons_cons] at hlast
        exact ih hc.2 (by simp) hlast

/-- A start node no stored edge points back to admits no start cycle. -/
theorem no_cycle_of_no_incoming (g : ArbitrageGraph) (start : NodeId)
    (h : ∀ kv ∈ g.nodes, ∀ e ∈ kv.2.edges, e.target ≠ start) :
    ¬ HasStartCycle g start := by
  rintro ⟨p, hchain, hhead, hlast, hlen⟩
  obtain ⟨a, e, he, hteq⟩ := edgeChain_last_edge hchain hlen hlast
  obtain ⟨kv, hkv, hekv⟩ := node_edges_subset he
  exact h kv hkv e hekv hteq

/-- Over the exact heap model: when no start cycle exists in the graph,
any normally returned list of the shared loop is empty, because every
frontier path is an edge chain from the start ending at its own node. -/
theorem searchLoopE_acyclic_empty (g : ArbitrageGraph) (start : NodeId)
    (max_depth : ℤ) (cmp : SearchState → SearchState → Except String Bool)
    (push_key : ℚ → NodeId → NodeId → Edge → ℚ) (fuel : ℕ)
    (hnc : ¬ HasStartCycle g start) :
    ∀ l, searchLoopE g start max_depth cmp push_key fuel
        (initialFrontier start) [] [] = Except.ok l → l = [] := by
  intro l hl
  rw [List.eq_nil_iff_forall_not_mem]
  intro o ho
  refine searchLoopE_inv g start max_depth cmp push_key
    (fun st => EdgeChain g st.path ∧ st.path.head? = some start ∧
      st.path.getLast? = some st.node)
    (fun _ => False) ?_ ?_ fuel _ [] []
    ?_ (fun o' ho' => absurd ho' (List.not_mem_nil o')) l hl o ho
  · intro st e hst he _ _
    obtain ⟨hchain, hhead, hlast⟩ := hst
    refine ⟨edgeChain_append hchain hlast ⟨e, he, rfl⟩, ?_, ?_⟩
    · simp only [succState]
      cases hpath : st.path with
      | nil => rw [hpath] at hhead; simp at hhead
      | cons a rest => rw [hpath] at hhead; simpa using hhead
    · simp only [succState]
      exact List.getLast?_concat _
  · intro st hst hlen hnode _
    obtain ⟨hchain, hhead, hlast⟩ := hst
    exact hnc ⟨st.path, hchain, hhead, hnode ▸ hlast, hlen⟩
  · intro st hst
    simp only [initialFrontier, List.mem_singleton] at hst
    subst hst
    exact ⟨trivial, rfl, rfl⟩

/-- Over the exact heap model: with non-negative stored weights and a
non-negative start price, any normally returned list of the shared loop
is empty — the emitted net profit −initial_price·total_cost can never be
positive. -/
theorem searchLoopE_nonneg_empty (g : ArbitrageGraph) (start : NodeId)
    (max_depth : ℤ) (cmp : SearchState → SearchState → Except String Bool)
    (push_key : ℚ → NodeId → NodeId → Edge → ℚ) (fuel : ℕ)
    (hp : 0 ≤ g.price start)
    (hw : ∀ n : NodeId, ∀ e ∈ g.node_edges n, 0 ≤ e.weight) :
    ∀ l, searchLoopE g start max_depth cmp push_key fuel
        (initialFrontier start) [] [] = Except.ok l → l = [] := by
  intro l hl
  rw [List.eq_nil_iff_forall_not_mem]
  intro o ho
  refine searchLoopE_inv g start max_depth cmp push_key
    (fun st => 0 ≤ st.total_cost) (fun _ => False) ?_ ?_ fuel _ [] []
    ?_ (fun o' ho' => absurd ho' (List.not_mem_nil o')) l hl o ho
  · intro st e hst he _ _
    exact add_nonneg hst (hw st.node e he)
  · intro st hst _ _ hpos
    have hprod : 0 ≤ g.price start * st.total_cost := mul_nonneg hp hst
    nlinarith
  · intro st hst
    simp only [initialFrontier, List.mem_singleton] at hst
    subst hst
    exact le_refl 0

/-- Popping a one-element heap returns that element without comparisons. -/
theorem heappopE_singleton (cmp : SearchState → SearchState → Except String Bool)
    (x : SearchState) : heappopE cmp [x] = Except.ok (x, []) := rfl

/-- Over the exact heap model, the boundary runs complete without any
heap comparison: a non-positive depth bound prunes the root immediately,
and an edgeless root has nothing to push, so the loop returns the empty
list in both cases. -/
theorem searchLoopE_initial_boundary (g : ArbitrageGraph) (start : NodeId)
    (max_depth : ℤ) (cmp : SearchState → SearchState → Except String Bool)
    (push_key : ℚ → NodeId → NodeId → Edge → ℚ) (fuel : ℕ) (hfuel : 1 ≤ fuel)
    (h : max_depth ≤ 0 ∨ g.node_edges start = []) :
    searchLoopE g start max_depth cmp push_key fuel (initialFrontier start) [] [] =
      Except.ok [] := by
  obtain ⟨fuel', rfl⟩ : ∃ k, fuel = k + 1 := ⟨fuel - 1, by omega⟩
  show searchLoopE g start max_depth cmp push_key (fuel' + 1)
    [{ f_cost := 0, total_cost := 0, node := start, path := [start], depth := 0 }]
    [] [] = Except.ok []
  simp only [searchLoopE, heappopE_singleton]
  rw [if_neg (List.not_mem_nil (start, 0))]
  rw [if_neg (by simp : ¬ (1 < ([start] : List NodeId).length ∧ True))]
  cases h with
  | inl hd =>
    rw [if_pos (by exact_mod_cast hd)]
  | inr hedges =>
    by_cases hdep : max_depth ≤ ((0 : ℕ) : ℤ)
    · rw [if_pos hdep]
    · rw [if_neg hdep, hedges]
      simp only [pushEdgesE]
      exact searchLoopE_nil g start max_depth cmp push_key fuel' _ _

/-- Counterexample to C2 as stated: the tie graph is inside the claim's
domain (non-negative start price, fees and volatility costs), yet none of
the three searches returns the empty opportunity list there — each aborts
with the TypeError the source raises when the second equal-priority push
makes heapq compare two ExchangeNode objects. -/
theorem nonneg_cost_searches_counterexample :
    (0 ≤ tie_graph.price ("S", "USD")) ∧
    (∀ kv ∈ tie_graph.nodes, ∀ e ∈ kv.2.edges,
      0 ≤ e.fee ∧ 0 ≤ e.volatility_cost ∧ e.weight = e.fee + e.volatility_cost) ∧
    dijkstra_arbitrage_exact tie_graph ("S", "USD") 10 50 =
      Except.error "TypeError" ∧
    astar_arbitrage_exact tie_graph ("S", "USD") 10 0.1 50 =
      Except.error "TypeError" ∧
    weighted_astar_arbitrage_exact tie_graph ("S", "USD") 10 0.1 1.5 50 =
      Except.error "TypeError" :=
  ⟨by decide!, by decide!, by decide!, by decide!, by decide!⟩

/-- C2 (amended): with a non-negative start price and only non-negative
fees and volatility costs (edge weights stored as their sum), none of the
three searches can emit an opportunity: every run of the exact heap model
that returns normally returns the empty list — the emitted net profit
initial_price − initial_price·(1 + total_cost) = −initial_price·total_cost
is never strictly positive under these preconditions.  (A run may instead
abort with the heap-tie TypeError; it never returns a non-empty list.) -/
theorem nonneg_cost_searches_never_emit (g : ArbitrageGraph) (start : NodeId)
    (max_depth : ℤ) (volatility_factor weight : ℚ) (fuel : ℕ)
    (hp : 0 ≤ g.price start)
    (hfee : ∀ kv ∈ g.nodes, ∀ e ∈ kv.2.edges, 0 ≤ e.fee)
    (hvol : ∀ kv ∈ g.nodes, ∀ e ∈ kv.2.edges, 0 ≤ e.volatility_cost)
    (hwf : ∀ kv ∈ g.nodes, ∀ e ∈ kv.2.edges, e.weight = e.fee + e.volatility_cost) :
    (∀ l, dijkstra_arbitrage_exact g start max_depth fuel = Except.ok l →
      l = []) ∧
    (∀ l, astar_arbitrage_exact g start max_depth volatility_factor fuel =
      Except.ok l → l = []) ∧
    (∀ l, weighted_astar_arbitrage_exact g start max_depth volatility_factor
      weight fuel = Except.ok l → l = []) := by
  have hw : ∀ n : NodeId, ∀ e ∈ g.node_edges n, 0 ≤ e.weight := by
    intro n e he
    obtain ⟨kv, hkv, hekv⟩ := node_edges_subset he
    rw [hwf kv hkv e hekv]
    exact add_nonneg (hfee kv hkv e hekv) (hvol kv hkv e hekv)
  refine ⟨?_, ?_, ?_⟩
  · intro l hl
    unfold dijkstra_arbitrage_exact at hl
    cases hloop : searchLoopE g start max_depth tupleLtDijkstra
        (fun new_cost _ _ _ => new_cost) fuel (initialFrontier start) [] [] with
    | error msg => simp [hloop] at hl
    | ok l₀ =>
      simp only [hloop, Except.ok.injEq] at hl
      rw [searchLoopE_nonneg_empty g start max_depth _ _ fuel hp hw l₀ hloop] at hl
      exact hl.symm
  · intro l hl
    unfold astar_arbitrage_exact at hl
    cases hloop : searchLoopE g start max_depth tupleLtAstar
        (fun new_cost current neighbor e =>
          new_cost + volatility_heuristic g current neighbor e volatility_factor)
        fuel (initialFrontier start) [] [] with
    | error msg => simp [hloop] at hl
    | ok l₀ =>
      simp only [hloop, Except.ok.injEq] at hl
      rw [searchLoopE_nonneg_empty g start max_depth _ _ fuel hp hw l₀ hloop] at hl
      exact hl.symm
  · intro l hl
    unfold weighted_astar_arbitrage_exact at hl
    cases hloop : searchLoopE g start max_depth tupleLtAstar
        (fun new_cost current neighbor e =>
          new_cost + weight * volatility_heuristic g current neighbor e
            volatility_factor)
        fuel (initialFrontier start) [] [] with
    | error msg => simp [hloop] at hl
    | ok l₀ =>
      simp only [hloop, Except.ok.injEq] at hl
      rw [searchLoopE_nonneg_empty g start max_depth _ _ fuel hp hw l₀ hloop] at hl
      exact hl.symm

/-- Witness for C2 (amended) on the round-trip graph, whose run completes
without any heap comparison and returns the empty list. -/
theorem nonneg_cost_searches_never_emit_witness :
    (0 ≤ (round_trip_graph 1.02 1.01 1).price ("ExchangeA", "USD")) ∧
    dijkstra_arbitrage_exact (round_trip_graph 1.02 1.01 1) ("ExchangeA", "USD")
      10 50 = Except.ok [] ∧
    ([] : List Opportunity) = [] :=
  ⟨by decide!, by decide!,
   (nonneg_cost_searches_never_emit (round_trip_graph 1.02 1.01 1)
     ("ExchangeA", "USD") 10 0.1 1.5 50 (by decide!) (by decide!) (by decide!)
     (by decide!)).1 [] (by decide!)⟩

/-- Counterexample to C6 as stated: the tie graph's start node has no
reachable cycle at all (no edge points back to it), yet the searches do
not yield an empty list — each aborts with the heap-tie TypeError. -/
theorem boundary_searches_counterexample :
    (¬ HasStartCycle tie_graph ("S", "USD")) ∧
    dijkstra_arbitrage_exact tie_graph ("S", "USD") 10 50 =
      Except.error "TypeError" ∧
    astar_arbitrage_exact tie_graph ("S", "USD") 10 0.1 50 =
      Except.error "TypeError" ∧
    weighted_astar_arbitrage_exact tie_graph ("S", "USD") 10 0.1 1.5 50 =
      Except.error "TypeError" :=
  ⟨no_cycle_of_no_incoming tie_graph ("S", "USD") (by decide!), by decide!,
   by decide!, by decide!⟩

/-- C6 (amended): for each search variant over the exact heap model,
max_depth ≤ 0 returns the empty opportunity list, and so does a start
node with no outgoing edges (both runs perform no heap comparison); a
start node with no reachable cycle never yields any opportunity — every
normally returning run yields the empty list, though such a run may abort
with the heap-tie TypeError instead of returning. -/
theorem boundary_and_acyclic_searches (g : ArbitrageGraph) (start : NodeId)
    (max_depth : ℤ) (volatility_factor weight : ℚ) (fuel : ℕ) :
    (max_depth ≤ 0 → 1 ≤ fuel →
      dijkstra_arbitrage_exact g start max_depth fuel = Except.ok [] ∧
      astar_arbitrage_exact g start max_depth volatility_factor fuel =
        Except.ok [] ∧
      weighted_astar_arbitrage_exact g start max_depth volatility_factor weight
        fuel = Except.ok []) ∧
    (g.node_edges start = [] → 1 ≤ fuel →
      dijkstra_arbitrage_exact g start max_depth fuel = Except.ok [] ∧
      astar_arbitrage_exact g start max_depth volatility_factor fuel =
        Except.ok [] ∧
      weighted_astar_arbitrage_exact g start max_depth volatility_factor weight
        fuel = Except.ok []) ∧
    (¬ HasStartCycle g start →
      (∀ l, dijkstra_arbitrage_exact g start max_depth fuel = Except.ok l →
        l = []) ∧
      (∀ l, astar_arbitrage_exact g start max_depth volatility_factor fuel =
        Except.ok l → l = []) ∧
      (∀ l, weighted_astar_arbitrage_exact g start max_depth volatility_factor
        weight fuel = Except.ok l → l = [])) := by
  have hboundary : ∀ (h : max_depth ≤ 0 ∨ g.node_edges start = []), 1 ≤ fuel →
      dijkstra_arbitrage_exact g start max_depth fuel = Except.ok [] ∧
      astar_arbitrage_exact g start max_depth volatility_factor fuel =
        Except.ok [] ∧
      weighted_astar_arbitrage_exact g start max_depth volatility_factor weight
        fuel = Except.ok [] := by
    intro h hfuel
    refine ⟨?_, ?_, ?_⟩
    · unfold dijkstra_arbitrage_exact
      rw [searchLoopE_initial_boundary g start max_depth _ _ fuel hfuel h]
      rfl
    · unfold astar_arbitrage_exact
      rw [searchLoopE_initial_boundary g start max_depth _ _ fuel hfuel h]
      rfl
    · unfold weighted_astar_arbitrage_exact
      rw [searchLoopE_initial_boundary g start max_depth _ _ fuel hfuel h]
      rfl
  refine ⟨fun hd => hboundary (Or.inl hd), fun he => hboundary (Or.inr he), ?_⟩
  intro hnc
  refine ⟨?_, ?_, ?_⟩
  · intro l hl
    unfold dijkstra_arbitrage_exact at hl
    cases hloop : searchLoopE g start max_depth tupleLtDijkstra
        (fun new_cost _ _ _ => new_cost) fuel (initialFrontier start) [] [] with
    | error msg => simp [hloop] at hl
    | ok l₀ =>
      simp only [hloop, Except.ok.injEq] at hl
      rw [searchLoopE_acyclic_empty g start max_depth _ _ fuel hnc l₀ hloop] at hl
      exact hl.symm
  · intro l hl
    unfold astar_arbitrage_exact at hl
    cases hloop : searchLoopE g start max_depth tupleLtAstar
        (fun new_cost current neighbor e =>
          new_cost + volatility_heuristic g current neighbor e volatility_factor)
        fuel (initialFrontier start) [] [] with
    | error msg => simp [hloop] at hl
    | ok l₀ =>
      simp only [hloop, Except.ok.injEq] at hl
      rw [searchLoopE_acyclic_empty g start max_depth _ _ fuel hnc l₀ hloop] at hl
      exact hl.symm
  · intro l hl
    unfold weighted_astar_arbitrage_exact at hl
    cases hloop : searchLoopE g start max_depth tupleLtAstar
        (fun new_cost current neighbor e =>
          new_cost + weight * volatility_heuristic g current neighbor e
            volatility_factor)
        fuel (initialFrontier start) [] [] with
    | error msg => simp [hloop] at hl
    | ok l₀ =>
      simp only [hloop, Except.ok.injEq] at hl
      rw [searchLoopE_acyclic_empty g start max_depth _ _ fuel hnc l₀ hloop] at hl
      exact hl.symm

/-- Witness for C6 (amended): a one-node graph exercises the negative
depth bound, the edgeless root and the acyclic case. -/
theorem boundary_and_acyclic_searches_witness :
    ((-1 : ℤ) ≤ 0 ∧
      dijkstra_arbitrage_exact single_node_graph ("Kraken", "USDT") (-1) 5 =
        Except.ok []) ∧
    (single_node_graph.node_edges ("Kraken", "USDT") = [] ∧
      astar_arbitrage_exact single_node_graph ("Kraken", "USDT") 7 0.1 5 =
        Except.ok []) ∧
    (¬ HasStartCycle single_node_graph ("Kraken", "USDT") ∧
      weighted_astar_arbitrage_exact single_node_graph ("Kraken", "USDT") 7 0.1
        1.5 5 = Except.ok [] ∧
      ([] : List Opportunity) = []) :=
  ⟨⟨by decide,
    ((boundary_and_acyclic_searches single_node_graph ("Kraken", "USDT") (-1)
      0.1 1.5 5).1 (by decide) (by decide)).1⟩,
   ⟨by decide!,
    ((boundary_and_acyclic_searches single_node_graph ("Kraken", "USDT") 7
      0.1 1.5 5).2.1 (by decide!) (by decide)).2.1⟩,
   ⟨no_cycle_of_no_incoming single_node_graph ("Kraken", "USDT") (by decide!),
    by decide!,
    ((boundary_and_acyclic_searches single_node_graph ("Kraken", "USDT") 7
      0.1 1.5 5).2.2 (no_cycle_of_no_incoming single_node_graph
        ("Kraken", "USDT") (by decide!))).2.2 [] (by decide!)⟩⟩

end Arbitrage
